/-
Verification of the irrtree core against its natural-language specification.

The Python source is shallowly embedded:
  * Python `Dict[str, Set[str]]` becomes an insertion-ordered association
    list `List (String × Finset String)` with Python-dict lookup/assignment
    semantics (`lookupA`, `setA`, `eraseA`, `addSetA` for
    `d.setdefault(k, set()).add(x)`).
  * Python `set` iteration order is unspecified; wherever the source
    iterates a set we iterate its lexicographically sorted list (the source
    itself uses `sorted(...)` in `_remove_recursivity` and `_filter_autnum`;
    for `get_origin_asns` the final results are order-independent).
  * Fallible code returns `Except PyErr`; a Python `KeyError`,
    `AssertionError` or `raise Exception` becomes the corresponding
    constructor.  Unbounded recursion is fuel-indexed; wrappers pass fuel
    that exceeds the recursion depth of every terminating Python run, and
    the theorems about general graphs prove the fuel is never exhausted.
-/
import Mathlib

namespace IrrTree

/-! ## Association-list maps with Python-dict semantics -/

/-- Membership graph / generic string map: `Dict[str, Set[str]]`. -/
abbrev GMap := List (String × Finset String)

section MapOps

variable {α β : Type} [DecidableEq α]

/-- Python `d[k]` as an option: first (unique, for dicts) binding of `k`. -/
def lookupA : List (α × β) → α → Option β
  | [], _ => none
  | (k, v) :: rest, key => if k = key then some v else lookupA rest key

/-- Python `d[k] = v`: replace the binding in place, else append. -/
def setA : List (α × β) → α → β → List (α × β)
  | [], key, v => [(key, v)]
  | (k, w) :: rest, key, v =>
    if k = key then (k, v) :: rest else (k, w) :: setA rest key v

/-- Python `del d[k]`. -/
def eraseA : List (α × β) → α → List (α × β)
  | [], _ => []
  | (k, w) :: rest, key => if k = key then eraseA rest key else (k, w) :: eraseA rest key

/-- keys of the dict, in insertion order. -/
def keysList (m : List (α × β)) : List α := m.map Prod.fst

end MapOps

/-- Python `d.setdefault(k, set()).add(x)`. -/
def addSetA [DecidableEq α] [DecidableEq γ] (m : List (α × Finset γ)) (key : α) (x : γ) :
    List (α × Finset γ) :=
  match lookupA m key with
  | some s => setA m key (insert x s)
  | none => m ++ [(key, {x})]

/-- Key set of a string map. -/
def keysFinset (m : GMap) : Finset String := (keysList m).toFinset

/-- Union of all member sets of the graph (`set(m for s in d.values() for m in s)`). -/
def allMembers (m : GMap) : Finset String := m.foldr (fun p acc => p.2 ∪ acc) ∅

/-- The source classifies identifiers lexically: `"-" in member` means AS-SET. -/
def dashIn (s : String) : Bool := s.data.contains '-'

/-- Lexicographic (code-point) order on strings, as Python compares them.
Structural so that the kernel can evaluate it on concrete inputs. -/
def strLtChars : List Char → List Char → Bool
  | [], [] => false
  | [], _ :: _ => true
  | _ :: _, [] => false
  | a :: restA, b :: restB =>
    if a < b then true else if b < a then false else strLtChars restA restB

def strLt (a b : String) : Bool := strLtChars a.data b.data

theorem strLtChars_irrefl : ∀ l, strLtChars l l = false := by
  intro l
  induction l with
  | nil => rfl
  | cons a rest ih => simp [strLtChars, lt_irrefl, ih]

theorem strLtChars_trans :
    ∀ l1 l2 l3, strLtChars l1 l2 = true → strLtChars l2 l3 = true →
      strLtChars l1 l3 = true := by
  intro l1
  induction l1 with
  | nil =>
    intro l2 l3 h12 h23
    cases l2 with
    | nil => simp [strLtChars] at h12
    | cons b r2 =>
      cases l3 with
      | nil => simp [strLtChars] at h23
      | cons c r3 => rfl
  | cons a r1 ih =>
    intro l2 l3 h12 h23
    cases l2 with
    | nil => simp [strLtChars] at h12
    | cons b r2 =>
      cases l3 with
      | nil => simp [strLtChars] at h23
      | cons c r3 =>
        simp only [strLtChars] at h12 h23 ⊢
        rcases lt_trichotomy a b with hab | hab | hab
        · rcases lt_trichotomy b c with hbc | hbc | hbc
          · simp [lt_trans hab hbc]
          · subst hbc; simp [hab]
          · rw [if_neg (lt_asymm hbc), if_pos hbc] at h23
            exact absurd h23 (by simp)
        · subst hab
          rw [if_neg (lt_irrefl a), if_neg (lt_irrefl a)] at h12
          rcases lt_trichotomy a c with hac | hac | hac
          · simp [hac]
          · subst hac
            rw [if_neg (lt_irrefl a), if_neg (lt_irrefl a)] at h23 ⊢
            exact ih r2 r3 h12 h23
          · rw [if_neg (lt_asymm hac), if_pos hac] at h23
            exact absurd h23 (by simp)
        · rw [if_neg (lt_asymm hab), if_pos hab] at h12
          exact absurd h12 (by simp)

theorem strLtChars_connex :
    ∀ l1 l2, strLtChars l1 l2 = false → strLtChars l2 l1 = false → l1 = l2 := by
  intro l1
  induction l1 with
  | nil =>
    intro l2 h12 _
    cases l2 with
    | nil => rfl
    | cons b r2 => simp [strLtChars] at h12
  | cons a r1 ih =>
    intro l2 h12 h21
    cases l2 with
    | nil => simp [strLtChars] at h21
    | cons b r2 =>
      simp only [strLtChars] at h12 h21
      rcases lt_trichotomy a b with hab | hab | hab
      · rw [if_pos hab] at h12; exact absurd h12 (by simp)
      · subst hab
        rw [if_neg (lt_irrefl a), if_neg (lt_irrefl a)] at h12 h21
        rw [ih r2 h12 h21]
      · rw [if_pos hab] at h21; exact absurd h21 (by simp)

theorem strLt_asymm {a b : String} (h : strLt a b = true) : strLt b a = false := by
  by_contra hc
  have h2 : strLt b a = true := by
    cases hba : strLt b a with
    | false => exact absurd hba hc
    | true => rfl
  have := strLtChars_trans _ _ _ h h2
  rw [strLtChars_irrefl] at this
  exact absurd this (by simp)

theorem string_eq_of_data_eq {a b : String} (h : a.data = b.data) : a = b := by
  cases a
  cases b
  exact congrArg String.mk h

theorem strLt_false_connex {a b : String} (h1 : strLt a b = false)
    (h2 : strLt b a = false) : a = b :=
  string_eq_of_data_eq (strLtChars_connex a.data b.data h1 h2)

theorem strLt_trans_str {a b c : String} (h1 : strLt a b = true)
    (h2 : strLt b c = true) : strLt a c = true :=
  strLtChars_trans a.data b.data c.data h1 h2

/-- Non-strict string order used to state sortedness. -/
def strLe (a b : String) : Prop := strLt b a = false

instance : DecidableRel strLe := fun a b => instDecidableEqBool (strLt b a) false

instance : IsTotal String strLe := by
  constructor
  intro a b
  cases h : strLt b a with
  | false => exact Or.inl h
  | true => exact Or.inr (strLt_asymm h)

instance : IsTrans String strLe := by
  constructor
  intro a b c hab hbc
  cases hca : strLt c a with
  | false => exact hca
  | true =>
    exfalso
    have hba : strLt b a = false := hab
    have hcb : strLt c b = false := hbc
    cases hABab : strLt a b with
    | false =>
      have : a = b := strLt_false_connex hABab hba
      subst this
      rw [hca] at hcb
      exact absurd hcb (by simp)
    | true =>
      have h1 : strLt c b = true := strLt_trans_str hca hABab
      rw [h1] at hcb
      exact absurd hcb (by simp)

instance : IsAntisymm String strLe := by
  constructor
  intro a b hab hba
  exact strLt_false_connex hba hab

/-- Python `sorted(...)` on a list of strings. -/
def sortStr (l : List String) : List String := List.insertionSort strLe l

theorem sortStr_eq_of_perm {l1 l2 : List String} (h : l1.Perm l2) :
    sortStr l1 = sortStr l2 :=
  List.eq_of_perm_of_sorted
    ((List.perm_insertionSort strLe l1).trans (h.trans (List.perm_insertionSort strLe l2).symm))
    (List.sorted_insertionSort strLe l1) (List.sorted_insertionSort strLe l2)

/-- Python `sorted(s)` for a set of strings. -/
def sortFin (s : Finset String) : List String :=
  Quotient.liftOn s.1 sortStr (fun _ _ h => sortStr_eq_of_perm h)

theorem mem_sortStr {x : String} {l : List String} : x ∈ sortStr l ↔ x ∈ l :=
  (List.perm_insertionSort strLe l).mem_iff

theorem mem_sortFin {x : String} {s : Finset String} : x ∈ sortFin s ↔ x ∈ s := by
  obtain ⟨m, hm⟩ := s
  induction m using Quotient.inductionOn with
  | h l => simpa [sortFin, Finset.mem_def] using mem_sortStr

/-- Errors a Python run can raise. -/
inductive PyErr
  | keyError (k : String)
  | assertError (msg : String)
  | exception (msg : String)
  | outOfFuel
  deriving DecidableEq

instance {ε α : Type} [DecidableEq ε] [DecidableEq α] : DecidableEq (Except ε α) := fun a b =>
  match a, b with
  | .ok x, .ok y => decidable_of_iff (x = y) (by simp)
  | .ok _, .error _ => .isFalse (by simp)
  | .error _, .ok _ => .isFalse (by simp)
  | .error e, .error f => decidable_of_iff (e = f) (by simp)

/-! ## De-cycle transform (`_remove_recursivity` / `remove_recursivity_from_tree`) -/

/-- State threaded through `_remove_recursivity`: the mutated members map and
the accumulated removed links. -/
structure RRState where
  map : GMap
  removed : Finset (String × String)
  deriving DecidableEq

/-- Member loop of `_remove_recursivity` (iterates the sorted snapshot of
`members_per_asset[asset]`, skipping AUT-NUMs, cutting back-edges to
`parents`, recursing otherwise). `recur` is the recursive call at one less
fuel, with `new_parents` already inserted by the caller. -/
def rrLoop (recur : String → RRState → Except PyErr RRState) (asset : String)
    (parents : Finset String) : List String → RRState → Except PyErr RRState
  | [], st => .ok st
  | m :: rest, st =>
    if ¬ dashIn m then rrLoop recur asset parents rest st
    else if m ∈ parents then
      rrLoop recur asset parents rest
        ⟨(match lookupA st.map asset with
          | some ms => setA st.map asset (ms.erase m)
          | none => st.map),
         insert (asset, m) st.removed⟩
    else do
      let st1 ← recur m st
      rrLoop recur asset parents rest st1

/-- Embedding of `_remove_recursivity(asset, members_per_asset, parents, removed_links)`. -/
def removeRecursivityAux : Nat → String → Finset String → RRState → Except PyErr RRState
  | 0, _, _, _ => .error .outOfFuel
  | f + 1, asset, parents, st =>
    match lookupA st.map asset with
    | none => .error (.keyError asset)
    | some mems =>
      rrLoop (fun m s => removeRecursivityAux f m (insert asset parents) s)
        asset parents (sortFin mems) st

/-- Embedding of `remove_recursivity_from_tree(root_asset, members_per_asset)`, including
its two sanity `assert`s. -/
def removeRecursivityFromTree (root : String) (g : GMap) :
    Except PyErr (GMap × Finset (String × String)) := do
  let st ← removeRecursivityAux (2 * g.length + 2) root ∅ ⟨g, ∅⟩
  if keysFinset st.map = keysFinset g then
    if allMembers g = allMembers st.map ∪ {root} then
      .ok (st.map, st.removed)
    else
      .error (.assertError "member sets differ by more than the root")
  else
    .error (.assertError "node set changed")

/-! ## Generic lemmas about the map operations -/

section MapLemmas

variable {α β : Type} [DecidableEq α]

theorem lookupA_setA (m : List (α × β)) (k : α) (v : β) (key : α) :
    lookupA (setA m k v) key = if k = key then some v else lookupA m key := by
  induction m with
  | nil =>
    by_cases h : k = key <;> simp [setA, lookupA, h]
  | cons p rest ih =>
    obtain ⟨k0, v0⟩ := p
    simp only [setA]
    by_cases h0 : k0 = k
    · subst h0
      simp only [if_pos rfl, lookupA]
      by_cases h1 : k0 = key <;> simp [h1]
    · rw [if_neg h0]
      simp only [lookupA, ih]
      by_cases h1 : k0 = key
      · subst h1
        rw [if_pos rfl, if_neg (by intro h; exact h0 h.symm), if_pos rfl]
      · simp [h1]

theorem isSome_lookupA_iff_mem (m : List (α × β)) (key : α) :
    (lookupA m key).isSome ↔ key ∈ keysList m := by
  induction m with
  | nil => simp [lookupA, keysList]
  | cons p rest ih =>
    obtain ⟨k0, v0⟩ := p
    by_cases h : k0 = key
    · subst h
      simp [lookupA, keysList]
    · simp only [lookupA, if_neg h, keysList, List.map_cons, List.mem_cons, ih]
      constructor
      · intro hmem
        exact Or.inr hmem
      · intro hmem
        rcases hmem with h1 | h1
        · exact absurd h1.symm h
        · exact h1

end MapLemmas

theorem mem_keysFinset {m : GMap} {x : String} :
    x ∈ keysFinset m ↔ (lookupA m x).isSome := by
  rw [keysFinset, List.mem_toFinset, isSome_lookupA_iff_mem]

/-! ## Leaf-reachability prune (`_filter_autnum` / `filter_autnum`) -/

/-- State threaded through `_filter_autnum`: the growing output map and the
shared visited set. -/
structure FAState where
  newMap : GMap
  visited : Finset String
  deriving DecidableEq

/-- Member loop of `_filter_autnum` (iterates the sorted members; skips
ancestors; keeps allowed AUT-NUMs; recurses into unvisited AS-SETs and keeps
those that survived). `recur` is `_filter_autnum` at one less fuel with
`new_parents` already extended by the caller. -/
def faLoop (recur : String → FAState → Except PyErr FAState) (allowed : Finset String)
    (parents : Finset String) :
    List String → Finset String × FAState → Except PyErr (Finset String × FAState)
  | [], acc => .ok acc
  | m :: rest, (nm, st) =>
    if m ∈ parents then faLoop recur allowed parents rest (nm, st)
    else if ¬ dashIn m then
      faLoop recur allowed parents rest ((if m ∈ allowed then insert m nm else nm), st)
    else do
      let st1 ← if m ∉ st.visited then recur m st else .ok st
      faLoop recur allowed parents rest
        ((if (lookupA st1.newMap m).isSome then insert m nm else nm), st1)

/-- Embedding of `_filter_autnum(as_set, allowed_autnum, original_members_per_asset,
new_members_per_asset, visited_assets, parents)`. -/
def filterAutnumAux (g : GMap) (allowed : Finset String) :
    Nat → String → Finset String → FAState → Except PyErr FAState
  | 0, _, _, _ => .error .outOfFuel
  | f + 1, as_set, parents, st =>
    if as_set ∈ st.visited then .ok st
    else if (lookupA st.newMap as_set).isSome then .ok st
    else
      match lookupA g as_set with
      | none => .error (.keyError as_set)
      | some mems => do
        let (nm, st1) ←
          faLoop (fun m s => filterAutnumAux g allowed f m (insert as_set parents) s)
            allowed parents (sortFin mems) (∅, ⟨st.newMap, insert as_set st.visited⟩)
        if nm = ∅ then .ok st1
        else .ok ⟨setA st1.newMap as_set nm, st1.visited⟩

/-- Embedding of `filter_autnum(root_asset, allowed_autnum, original_members_per_asset)`. -/
def filterAutnum (root : String) (allowed : Finset String) (g : GMap) :
    Except PyErr GMap :=
  (filterAutnumAux g allowed (g.length + 2) root ∅ ⟨[], ∅⟩).map FAState.newMap

/-- Invariant of the prune output: every recorded AS-SET has at least one
retained member, and every retained AS-SET member is itself recorded. -/
def PruneInv (m : GMap) : Prop :=
  ∀ k v, lookupA m k = some v →
    v ≠ ∅ ∧ ∀ x ∈ v, dashIn x → (lookupA m x).isSome

/-- The prune only ever adds keys. -/
def MapMono (m m' : GMap) : Prop :=
  ∀ k, (lookupA m k).isSome → (lookupA m' k).isSome

theorem mapMono_refl (m : GMap) : MapMono m m := by
  intro k h
  exact h

theorem mapMono_trans {m1 m2 m3 : GMap} (h1 : MapMono m1 m2) (h2 : MapMono m2 m3) :
    MapMono m1 m3 := by
  intro k h
  exact h2 k (h1 k h)

theorem faLoop_inv
    (recur : String → FAState → Except PyErr FAState)
    (allowed parents : Finset String)
    (hrec : ∀ m st st', recur m st = .ok st' → PruneInv st.newMap →
      PruneInv st'.newMap ∧ MapMono st.newMap st'.newMap) :
    ∀ (ms : List String) (nm : Finset String) (st : FAState)
      (out : Finset String × FAState),
      faLoop recur allowed parents ms (nm, st) = .ok out →
      PruneInv st.newMap →
      (∀ x ∈ nm, dashIn x → (lookupA st.newMap x).isSome) →
      PruneInv out.2.newMap ∧ MapMono st.newMap out.2.newMap ∧
        (∀ x ∈ out.1, dashIn x → (lookupA out.2.newMap x).isSome) := by
  intro ms
  induction ms with
  | nil =>
    intro nm st out hrun hInv hnm
    simp only [faLoop] at hrun
    cases hrun
    exact ⟨hInv, mapMono_refl _, hnm⟩
  | cons m rest ih =>
    intro nm st out hrun hInv hnm
    simp only [faLoop, bind, Except.bind] at hrun
    split at hrun
    · exact ih nm st out hrun hInv hnm
    next hp =>
      split at hrun
      next hd =>
        refine ih _ st out hrun hInv ?_
        intro x hx hdx
        by_cases ha : m ∈ allowed
        · rw [if_pos ha] at hx
          rcases Finset.mem_insert.mp hx with rfl | hx'
          · exact absurd hdx (by simpa using hd)
          · exact hnm x hx' hdx
        · rw [if_neg ha] at hx
          exact hnm x hx hdx
      next hd =>
        split at hrun
        next hv =>
          split at hrun
          · cases hrun
          next st1 hr =>
            have hst1ok : PruneInv st1.newMap ∧ MapMono st.newMap st1.newMap :=
              hrec m st st1 hr hInv
            have hnm' : ∀ x ∈ (if (lookupA st1.newMap m).isSome then insert m nm else nm),
                dashIn x → (lookupA st1.newMap x).isSome := by
              intro x hx hdx
              by_cases hs : (lookupA st1.newMap m).isSome
              · rw [if_pos hs] at hx
                rcases Finset.mem_insert.mp hx with rfl | hx'
                · exact hs
                · exact hst1ok.2 x (hnm x hx' hdx)
              · rw [if_neg hs] at hx
                exact hst1ok.2 x (hnm x hx hdx)
            have := ih _ st1 out hrun hst1ok.1 hnm'
            exact ⟨this.1, mapMono_trans hst1ok.2 this.2.1, this.2.2⟩
        next hv =>
          have hnm' : ∀ x ∈ (if (lookupA st.newMap m).isSome then insert m nm else nm),
              dashIn x → (lookupA st.newMap x).isSome := by
            intro x hx hdx
            by_cases hs : (lookupA st.newMap m).isSome
            · rw [if_pos hs] at hx
              rcases Finset.mem_insert.mp hx with rfl | hx'
              · exact hs
              · exact hnm x hx' hdx
            · rw [if_neg hs] at hx
              exact hnm x hx hdx
          exact ih _ st out hrun hInv hnm'

theorem filterAutnumAux_inv (g : GMap) (allowed : Finset String) :
    ∀ (f : Nat) (as_set : String) (parents : Finset String) (st st' : FAState),
      filterAutnumAux g allowed f as_set parents st = .ok st' →
      PruneInv st.newMap → PruneInv st'.newMap ∧ MapMono st.newMap st'.newMap := by
  intro f
  induction f with
  | zero =>
    intro as_set parents st st' hrun
    simp [filterAutnumAux] at hrun
  | succ f ih =>
    intro as_set parents st st' hrun hInv
    simp only [filterAutnumAux, bind, Except.bind] at hrun
    split at hrun
    · cases hrun
      exact ⟨hInv, mapMono_refl _⟩
    split at hrun
    · cases hrun
      exact ⟨hInv, mapMono_refl _⟩
    split at hrun
    · cases hrun
    next mems hg =>
      split at hrun
      · cases hrun
      next p hloop =>
        obtain ⟨nm, st1⟩ := p
        have hl := faLoop_inv _ allowed parents
          (fun m s s' hr hi => ih m (insert as_set parents) s s' hr hi)
          (sortFin mems) ∅ ⟨st.newMap, insert as_set st.visited⟩ (nm, st1)
          hloop hInv (by simp)
        split at hrun
        next hnm =>
          cases hrun
          exact ⟨hl.1, hl.2.1⟩
        next hnm =>
          cases hrun
          constructor
          · intro k v hkv
            rw [lookupA_setA] at hkv
            by_cases hks : as_set = k
            · rw [if_pos hks] at hkv
              cases hkv
              refine ⟨hnm, ?_⟩
              intro x hx hdx
              rw [lookupA_setA]
              by_cases hxs : as_set = x
              · simp [hxs]
              · rw [if_neg hxs]
                exact hl.2.2 x hx hdx
            · rw [if_neg hks] at hkv
              have := hl.1 k v hkv
              refine ⟨this.1, ?_⟩
              intro x hx hdx
              rw [lookupA_setA]
              by_cases hxs : as_set = x
              · simp [hxs]
              · rw [if_neg hxs]
                exact this.2 x hx hdx
          · intro k hks
            have := hl.2.1 k hks
            rw [lookupA_setA]
            by_cases hxs : as_set = k
            · simp [hxs]
            · rw [if_neg hxs]
              exact this

/-! ## Origin resolver (`get_origin_asns` / `get_origin_asns_from_members`) -/

/-- Mutable state of the resolver: `origin_ases_per_asset` (the memo table of
finalized closures) and `recursive_as_sets` (the deferred-resolution table). -/
structure OState where
  memo : GMap
  recTable : GMap
  deriving DecidableEq

/-- Candidate-recursive-parent update: keep the ancestor with the smallest
index in `parents` (closest to the root).  This is the logic the source
repeats at lines 171-177 and 213-219 of `process_functions.py`. -/
def updateRP (parents : List String) (rp : Option String) (cand : String) : Option String :=
  match rp with
  | none => some cand
  | some r0 => if parents.indexOf cand < parents.indexOf r0 then some cand else some r0

/-- Member loop of `get_origin_asns` (lines 164-219): skips self-references,
records ancestors as candidate recursive parents, accumulates AUT-NUM
members, recurses into AS-SET members and propagates their recursive
parents.  `recur` is `get_origin_asns` at one less fuel. -/
def oLoop
    (recur : String → List String → OState → Except PyErr (Option String × Finset String × OState))
    (as_set : String) (parents newParents : List String) :
    List String → Option String × Finset String × OState →
      Except PyErr (Option String × Finset String × OState)
  | [], acc => .ok acc
  | m :: rest, (rp, nr, st) =>
    if m = as_set then oLoop recur as_set parents newParents rest (rp, nr, st)
    else if m ∈ parents then
      oLoop recur as_set parents newParents rest (updateRP parents rp m, nr, st)
    else if ¬ dashIn m then
      oLoop recur as_set parents newParents rest (rp, insert m nr, st)
    else do
      let (rpm, mo, st1) ← recur m newParents st
      match rpm with
      | none => oLoop recur as_set parents newParents rest (rp, nr ∪ mo, st1)
      | some r =>
        if r = as_set then oLoop recur as_set parents newParents rest (rp, nr ∪ mo, st1)
        else if r ∈ parents then
          oLoop recur as_set parents newParents rest (updateRP parents rp r, nr ∪ mo, st1)
        else .error (.exception "we got a recursive parent for a child, that we dont have..")

/-- Post-loop bookkeeping of `get_origin_asns` (lines 227-250): either defer
this AS-SET under its recursive parent (re-keying any entries deferred under
it), or finalize its closure and the closures of everything deferred under
it. -/
def finishOrigin (as_set : String) (rp : Option String) (nr : Finset String) (st : OState) :
    Option String × Finset String × OState :=
  match rp with
  | some p =>
    let t1 := addSetA st.recTable p as_set
    let t2 :=
      match lookupA t1 as_set with
      | some children =>
        eraseA ((sortFin children).foldl (fun t c => addSetA t p c) t1) as_set
      | none => t1
    (some p, nr, ⟨st.memo, t2⟩)
  | none =>
    let memo1 := setA st.memo as_set nr
    match lookupA st.recTable as_set with
    | some children =>
      (none, nr, ⟨(sortFin children).foldl (fun mm c => setA mm c nr) memo1,
        eraseA st.recTable as_set⟩)
    | none => (none, nr, ⟨memo1, st.recTable⟩)

/-- Embedding of `get_origin_asns(as_set, origin_ases_per_asset, as_sets_members, parents,
recursive_as_sets)`. Returns the recursive parent (if any) and the origin
set of this AS-SET, threading the resolver state. -/
def getOriginAsns (g : GMap) :
    Nat → String → List String → OState → Except PyErr (Option String × Finset String × OState)
  | 0, _, _, _ => .error .outOfFuel
  | f + 1, as_set, parents, st =>
    match lookupA st.memo as_set with
    | some v => .ok (none, v, st)
    | none =>
      match lookupA g as_set with
      | none => .error (.keyError as_set)
      | some mems => do
        let (rp, nr, st1) ← oLoop (fun a p s => getOriginAsns g f a p s)
          as_set parents (parents ++ [as_set]) (sortFin mems) (none, ∅, st)
        .ok (finishOrigin as_set rp nr st1)

/-- Embedding of `get_origin_asns_from_members(root_as_set, members_per_asset)`, including
its three integrity `assert`s. -/
def getOriginAsnsFromMembers (root : String) (g : GMap) : Except PyErr GMap := do
  let (rp, _, st) ← getOriginAsns g (g.length + 1) root [] ⟨[], []⟩
  if rp ≠ none then
    .error (.assertError "The parent tree depends on a as-set that is not included")
  else if st.recTable ≠ [] then
    .error (.assertError "The recursive_as_sets contains unmanaged recursive as_sets")
  else if keysFinset st.memo ≠ keysFinset g then
    .error (.assertError "we did not find the origin ases for all as-sets on the tree")
  else
    .ok st.memo

/-! ## Reachability in the membership graph -/

/-- Relation `Reaches g s t`: there is a non-empty chain of membership edges from `s`
to `t` (each step goes from a key of `g` to one of its members). -/
inductive Reaches (g : GMap) : String → String → Prop
  | single {s m : String} {ms : Finset String} :
      lookupA g s = some ms → m ∈ ms → Reaches g s m
  | head {s m u : String} {ms : Finset String} :
      lookupA g s = some ms → m ∈ ms → Reaches g m u → Reaches g s u

/-- Reflexive-transitive reachability. -/
def RReach (g : GMap) (s t : String) : Prop := t = s ∨ Reaches g s t

theorem reaches_trans {g : GMap} {a b c : String} (h1 : Reaches g a b)
    (h2 : Reaches g b c) : Reaches g a c := by
  induction h1 with
  | single hl hm => exact .head hl hm h2
  | head hl hm _ ih => exact .head hl hm (ih h2)

theorem reaches_snoc {g : GMap} {a b m : String} {ms : Finset String}
    (h : Reaches g a b) (hl : lookupA g b = some ms) (hm : m ∈ ms) :
    Reaches g a m :=
  reaches_trans h (.single hl hm)

theorem reaches_first_edge {g : GMap} {s x : String} (h : Reaches g s x) :
    (lookupA g s).isSome := by
  cases h with
  | single hl _ => rw [hl]; rfl
  | head hl _ _ => rw [hl]; rfl

theorem reaches_last_edge {g : GMap} {s x : String} (h : Reaches g s x) :
    ∃ u ms, lookupA g u = some ms ∧ x ∈ ms := by
  induction h with
  | single hl hm => exact ⟨_, _, hl, hm⟩
  | head _ _ _ ih => exact ih

theorem rreach_refl {g : GMap} (s : String) : RReach g s s := Or.inl rfl

theorem rreach_snoc {g : GMap} {root s m : String} {ms : Finset String}
    (h : RReach g root s) (hl : lookupA g s = some ms) (hm : m ∈ ms) :
    RReach g root m := by
  rcases h with rfl | h
  · exact Or.inr (.single hl hm)
  · exact Or.inr (reaches_snoc h hl hm)

theorem rreach_trans {g : GMap} {a b c : String} (h1 : RReach g a b)
    (h2 : RReach g b c) : RReach g a c := by
  rcases h2 with rfl | h2
  · exact h1
  · rcases h1 with rfl | h1
    · exact Or.inr h2
    · exact Or.inr (reaches_trans h1 h2)

theorem rreach_of_reaches_tail {g : GMap} {a b c : String}
    (h1 : RReach g a b) (h2 : Reaches g b c) : Reaches g a c := by
  rcases h1 with rfl | h1
  · exact h2
  · exact reaches_trans h1 h2

/-- The explicit ancestor path the resolver threads: `PathTo g root ps s`
means `ps` is a chain of membership edges from `root` ending just above `s`. -/
inductive PathTo (g : GMap) (root : String) : List String → String → Prop
  | nil : PathTo g root [] root
  | snoc {ps : List String} {p s : String} {ms : Finset String} :
      PathTo g root ps p → lookupA g p = some ms → s ∈ ms → PathTo g root (ps ++ [p]) s

theorem pathTo_rreach_root {g : GMap} {root s : String} {ps : List String}
    (h : PathTo g root ps s) : RReach g root s := by
  induction h with
  | nil => exact rreach_refl _
  | snoc _ hl hm ih => exact rreach_snoc ih hl hm

theorem pathTo_mem {g : GMap} {root s : String} {ps : List String}
    (h : PathTo g root ps s) : ∀ p ∈ ps, RReach g root p ∧ Reaches g p s := by
  induction h with
  | nil => intro p hp; exact absurd hp (List.not_mem_nil p)
  | snoc hprev hl hm ih =>
    intro q hq
    rcases List.mem_append.mp hq with hq | hq
    · obtain ⟨h1, h2⟩ := ih q hq
      exact ⟨h1, reaches_snoc h2 hl hm⟩
    · rcases List.mem_singleton.mp hq with rfl
      exact ⟨pathTo_rreach_root hprev, .single hl hm⟩

theorem pathTo_keys {g : GMap} {root s : String} {ps : List String}
    (h : PathTo g root ps s) : ∀ p ∈ ps, (lookupA g p).isSome := by
  induction h with
  | nil => intro p hp; exact absurd hp (List.not_mem_nil p)
  | snoc _ hl _ ih =>
    intro q hq
    rcases List.mem_append.mp hq with hq | hq
    · exact ih q hq
    · rcases List.mem_singleton.mp hq with rfl
      rw [hl]; rfl

theorem pathTo_nodup {g : GMap} {root s : String} {ps : List String}
    (h : PathTo g root ps s)
    (hA : ∀ t, RReach g root t → ¬ Reaches g t t) :
    ps.Nodup ∧ s ∉ ps := by
  induction h with
  | nil => exact ⟨List.nodup_nil, List.not_mem_nil _⟩
  | @snoc ps p t ms hprev hl hm ih =>
    obtain ⟨hnd, hpnot⟩ := ih
    constructor
    · rw [List.nodup_append]
      refine ⟨hnd, List.nodup_singleton _, ?_⟩
      intro q hq hq1
      rcases List.mem_singleton.mp hq1 with rfl
      exact hpnot hq
    · intro hs
      rcases List.mem_append.mp hs with hs | hs
      · obtain ⟨hroot, hreach⟩ := pathTo_mem hprev t hs
        exact hA t hroot (reaches_snoc hreach hl hm)
      · rcases List.mem_singleton.mp hs with rfl
        exact hA t (pathTo_rreach_root hprev) (.single hl hm)

theorem nodup_keys_length_le (g : GMap) (l : List String) (hnd : l.Nodup)
    (hk : ∀ x ∈ l, (lookupA g x).isSome) : l.length ≤ g.length := by
  have hsub : l.toFinset ⊆ (keysList g).toFinset := by
    intro x hx
    rw [List.mem_toFinset] at hx ⊢
    exact (isSome_lookupA_iff_mem g x).mp (hk x hx)
  have h1 : l.toFinset.card = l.length := List.toFinset_card_of_nodup hnd
  have h2 := Finset.card_le_card hsub
  have h3 : (keysList g).toFinset.card ≤ (keysList g).length := (keysList g).toFinset_card_le
  have h4 : (keysList g).length = g.length := List.length_map _ _
  omega

/-- Invariant of the resolver memo table in the acyclic case: every memoized
identifier is a key of `g`, every stored closure is exactly its reachable
AUT-NUM set, and the memo domain is closed under reachability into keys. -/
def MemoOK (g : GMap) (memo : GMap) : Prop :=
  (∀ s, (lookupA memo s).isSome → (lookupA g s).isSome) ∧
  (∀ s v, lookupA memo s = some v → ∀ a, a ∈ v ↔ (Reaches g s a ∧ dashIn a = false)) ∧
  (∀ s t, (lookupA memo s).isSome → RReach g s t → (lookupA g t).isSome →
    (lookupA memo t).isSome)

theorem oLoop_acyclic (g : GMap) (root : String)
    (hA : ∀ s, RReach g root s → ¬ Reaches g s s)
    (as_set : String) (parents : List String) (mems : Finset String)
    (hroot : RReach g root as_set)
    (hg : lookupA g as_set = some mems)
    (hparents : ∀ p ∈ parents, RReach g root p ∧ Reaches g p as_set)
    (recur : String → List String → OState →
      Except PyErr (Option String × Finset String × OState))
    (hrec : ∀ m st1, m ∈ mems → dashIn m = true → MemoOK g st1.memo →
      st1.recTable = [] →
      ∃ v st2, recur m (parents ++ [as_set]) st1 = .ok (none, v, st2) ∧
        st2.recTable = [] ∧ MemoOK g st2.memo ∧
        (∀ a, a ∈ v ↔ (Reaches g m a ∧ dashIn a = false)) ∧
        (∀ t, (lookupA st2.memo t).isSome ↔
          ((lookupA st1.memo t).isSome ∨ (RReach g m t ∧ (lookupA g t).isSome)))) :
    ∀ (ms : List String), (∀ m ∈ ms, m ∈ mems) →
      ∀ (nr : Finset String) (st : OState), MemoOK g st.memo → st.recTable = [] →
      ∃ nr' st',
        oLoop recur as_set parents (parents ++ [as_set]) ms (none, nr, st) =
          .ok (none, nr', st') ∧
        st'.recTable = [] ∧ MemoOK g st'.memo ∧
        (∀ a, a ∈ nr' ↔ (a ∈ nr ∨ ∃ m ∈ ms, (dashIn m = false ∧ a = m) ∨
          (dashIn m = true ∧ Reaches g m a ∧ dashIn a = false))) ∧
        (∀ t, (lookupA st'.memo t).isSome ↔
          ((lookupA st.memo t).isSome ∨
            ∃ m ∈ ms, dashIn m = true ∧ RReach g m t ∧ (lookupA g t).isSome)) := by
  intro ms
  induction ms with
  | nil =>
    intro _ nr st hmemo htab
    refine ⟨nr, st, rfl, htab, hmemo, ?_, ?_⟩
    · intro a; simp
    · intro t; simp
  | cons m rest ihrest =>
    intro hsub nr st hmemo htab
    have hm : m ∈ mems := hsub m (List.mem_cons_self m rest)
    have hmas : m ≠ as_set := by
      intro h
      subst h
      exact hA m hroot (.single hg hm)
    have hmp : m ∉ parents := by
      intro h
      obtain ⟨h1, h2⟩ := hparents m h
      exact hA m h1 (reaches_snoc h2 hg hm)
    have hsub' : ∀ x ∈ rest, x ∈ mems := fun x hx => hsub x (List.mem_cons_of_mem m hx)
    by_cases hd : dashIn m = true
    · -- AS-SET member: recurse, then continue with the union.
      obtain ⟨v, st2, hrun2, htab2, hmemo2, hv, hdom2⟩ := hrec m st hm hd hmemo htab
      obtain ⟨nr', st', hrun', htab', hmemo', hval', hdom'⟩ :=
        ihrest hsub' (nr ∪ v) st2 hmemo2 htab2
      refine ⟨nr', st', ?_, htab', hmemo', ?_, ?_⟩
      · simp only [oLoop, if_neg hmas, if_neg hmp, hd, Bool.not_true, bind, Except.bind,
          hrun2, if_neg (by exact hmas)]
        simpa using hrun'
      · intro a
        rw [hval' a]
        simp only [Finset.mem_union, List.mem_cons]
        constructor
        · intro h
          rcases h with (h | h) | h
          · exact Or.inl h
          · exact Or.inr ⟨m, Or.inl rfl, Or.inr ⟨hd, (hv a).mp h⟩⟩
          · obtain ⟨x, hx, hcase⟩ := h
            exact Or.inr ⟨x, Or.inr hx, hcase⟩
        · intro h
          rcases h with h | ⟨x, hx | hx, hcase⟩
          · exact Or.inl (Or.inl h)
          · subst hx
            rcases hcase with ⟨hf, _⟩ | ⟨_, hra, hda⟩
            · rw [hf] at hd; cases hd
            · exact Or.inl (Or.inr ((hv a).mpr ⟨hra, hda⟩))
          · exact Or.inr ⟨x, hx, hcase⟩
      · intro t
        rw [hdom' t, hdom2 t]
        simp only [List.mem_cons]
        constructor
        · intro h
          rcases h with (h | h) | h
          · exact Or.inl h
          · exact Or.inr ⟨m, Or.inl rfl, hd, h⟩
          · obtain ⟨x, hx, hcase⟩ := h
            exact Or.inr ⟨x, Or.inr hx, hcase⟩
        · intro h
          rcases h with h | ⟨x, hx | hx, hcase⟩
          · exact Or.inl (Or.inl h)
          · subst hx
            exact Or.inl (Or.inr ⟨hcase.2.1, hcase.2.2⟩)
          · exact Or.inr ⟨x, hx, hcase⟩
    · -- AUT-NUM member: accumulate it directly.
      obtain ⟨nr', st', hrun', htab', hmemo', hval', hdom'⟩ :=
        ihrest hsub' (insert m nr) st hmemo htab
      refine ⟨nr', st', ?_, htab', hmemo', ?_, ?_⟩
      · simp only [oLoop, if_neg hmas, if_neg hmp, hd, Bool.not_false]
        simpa [hd] using hrun'
      · intro a
        rw [hval' a]
        simp only [Finset.mem_insert, List.mem_cons]
        constructor
        · intro h
          rcases h with (h | h) | h
          · exact Or.inr ⟨m, Or.inl rfl, Or.inl ⟨by simpa using hd, h⟩⟩
          · exact Or.inl h
          · obtain ⟨x, hx, hcase⟩ := h
            exact Or.inr ⟨x, Or.inr hx, hcase⟩
        · intro h
          rcases h with h | ⟨x, hx | hx, hcase⟩
          · exact Or.inl (Or.inr h)
          · subst hx
            rcases hcase with ⟨_, ha⟩ | ⟨ht, _⟩
            · exact Or.inl (Or.inl ha)
            · rw [ht] at hd; cases hd rfl
          · exact Or.inr ⟨x, hx, hcase⟩
      · intro t
        rw [hdom' t]
        simp only [List.mem_cons]
        constructor
        · intro h
          rcases h with h | h
          · exact Or.inl h
          · obtain ⟨x, hx, hcase⟩ := h
            exact Or.inr ⟨x, Or.inr hx, hcase⟩
        · intro h
          rcases h with h | ⟨x, hx | hx, hcase⟩
          · exact Or.inl h
          · subst hx
            rw [hcase.1] at hd; cases hd rfl
          · exact Or.inr ⟨x, hx, hcase⟩

theorem getOriginAsns_acyclic (g : GMap) (root : String)
    (hA : ∀ s, RReach g root s → ¬ Reaches g s s)
    (hC : ∀ s, RReach g root s → dashIn s = true → (lookupA g s).isSome)
    (hK : ∀ s, RReach g root s → (lookupA g s).isSome → dashIn s = true) :
    ∀ (fuel : Nat) (as_set : String) (parents : List String) (st : OState),
      PathTo g root parents as_set → dashIn as_set = true →
      MemoOK g st.memo → st.recTable = [] →
      g.length + 1 ≤ fuel + parents.length →
      ∃ v st',
        getOriginAsns g fuel as_set parents st = .ok (none, v, st') ∧
        st'.recTable = [] ∧ MemoOK g st'.memo ∧
        (∀ a, a ∈ v ↔ (Reaches g as_set a ∧ dashIn a = false)) ∧
        (∀ t, (lookupA st'.memo t).isSome ↔
          ((lookupA st.memo t).isSome ∨ (RReach g as_set t ∧ (lookupA g t).isSome))) := by
  intro fuel
  induction fuel with
  | zero =>
    intro as_set parents st hpath _ _ _ hfuel
    exfalso
    obtain ⟨hnd, _⟩ := pathTo_nodup hpath hA
    have hle := nodup_keys_length_le g parents hnd (pathTo_keys hpath)
    omega
  | succ f ih =>
    intro as_set parents st hpath hdash hmemo htab hfuel
    have hroot := pathTo_rreach_root hpath
    rcases hmem : lookupA st.memo as_set with _ | v0
    case some =>
      -- already memoized: returned unchanged
      refine ⟨v0, st, ?_, htab, hmemo, ?_, ?_⟩
      · simp [getOriginAsns, hmem]
      · exact hmemo.2.1 as_set v0 hmem
      · intro t
        constructor
        · intro h
          exact Or.inl h
        · rintro (h | ⟨hrr, hkt⟩)
          · exact h
          · exact hmemo.2.2 as_set t (by rw [hmem]; rfl) hrr hkt
    case none =>
      have hkey : (lookupA g as_set).isSome := hC as_set hroot hdash
      obtain ⟨mems, hg⟩ := Option.isSome_iff_exists.mp hkey
      have hrec : ∀ m st1, m ∈ mems → dashIn m = true → MemoOK g st1.memo →
          st1.recTable = [] →
          ∃ v st2, getOriginAsns g f m (parents ++ [as_set]) st1 = .ok (none, v, st2) ∧
            st2.recTable = [] ∧ MemoOK g st2.memo ∧
            (∀ a, a ∈ v ↔ (Reaches g m a ∧ dashIn a = false)) ∧
            (∀ t, (lookupA st2.memo t).isSome ↔
              ((lookupA st1.memo t).isSome ∨ (RReach g m t ∧ (lookupA g t).isSome))) := by
        intro m st1 hm hdm hmo htb
        exact ih m (parents ++ [as_set]) st1 (.snoc hpath hg hm) hdm hmo htb
          (by rw [List.length_append]; simp; omega)
      obtain ⟨nr', st', hrun, htab', hmemo', hval, hdom⟩ :=
        oLoop_acyclic g root hA as_set parents mems hroot hg (pathTo_mem hpath)
          (fun a p s => getOriginAsns g f a p s) hrec
          (sortFin mems) (fun m hm => mem_sortFin.mp hm) ∅ st hmemo htab
      -- characterization of the accumulated origin set
      have hvchar : ∀ a, a ∈ nr' ↔ (Reaches g as_set a ∧ dashIn a = false) := by
        intro a
        rw [hval a]
        simp only [Finset.not_mem_empty, false_or]
        constructor
        · rintro ⟨m, hmm, hcase⟩
          have hmmem : m ∈ mems := mem_sortFin.mp hmm
          rcases hcase with ⟨hf, rfl⟩ | ⟨_, hra, hda⟩
          · exact ⟨.single hg hmmem, hf⟩
          · exact ⟨.head hg hmmem hra, hda⟩
        · rintro ⟨hr, hda⟩
          cases hr with
          | single hl hmm =>
            rw [hg] at hl
            injection hl with hl
            subst hl
            exact ⟨a, mem_sortFin.mpr hmm, Or.inl ⟨hda, rfl⟩⟩
          | @head _ mmid _ msX hl hmm hr2 =>
            rw [hg] at hl
            injection hl with hl
            subst hl
            by_cases hdm : dashIn mmid = true
            · exact ⟨mmid, mem_sortFin.mpr hmm, Or.inr ⟨hdm, hr2, hda⟩⟩
            · exfalso
              have h1 : (lookupA g mmid).isSome := reaches_first_edge hr2
              have h2 : RReach g root mmid := rreach_snoc hroot hg hmm
              exact hdm (hK mmid h2 h1)
      -- decomposition of reachability-from-`as_set` into member contributions
      have hdecomp : ∀ t, Reaches g as_set t → (lookupA g t).isSome →
          ∃ m ∈ mems, dashIn m = true ∧ RReach g m t := by
        intro t hr hkt
        cases hr with
        | single hl hmm =>
          rw [hg] at hl
          injection hl with hl
          subst hl
          have hdt : dashIn t = true := hK t (rreach_snoc hroot hg hmm) hkt
          exact ⟨t, hmm, hdt, rreach_refl t⟩
        | @head _ mmid _ msX hl hmm hr2 =>
          rw [hg] at hl
          injection hl with hl
          subst hl
          have h1 : (lookupA g mmid).isSome := reaches_first_edge hr2
          have h2 : RReach g root mmid := rreach_snoc hroot hg hmm
          exact ⟨mmid, hmm, hK mmid h2 h1, Or.inr hr2⟩
      refine ⟨nr', ⟨setA st'.memo as_set nr', []⟩, ?_, rfl, ?_, hvchar, ?_⟩
      · -- the run itself
        simp only [getOriginAsns, hmem, hg, bind, Except.bind, hrun, finishOrigin, htab',
          lookupA]
      · -- the memo invariant is preserved by the final insertion
        refine ⟨?_, ?_, ?_⟩
        · intro s hs
          rw [lookupA_setA] at hs
          by_cases h : as_set = s
          · subst h; exact hkey
          · rw [if_neg h] at hs
            exact hmemo'.1 s hs
        · intro s v hsv
          rw [lookupA_setA] at hsv
          by_cases h : as_set = s
          · subst h
            rw [if_pos rfl] at hsv
            injection hsv with hsv
            subst hsv
            exact hvchar
          · rw [if_neg h] at hsv
            exact hmemo'.2.1 s v hsv
        · intro s t hs hrr hkt
          rw [lookupA_setA] at hs ⊢
          by_cases h2 : as_set = t
          · rw [if_pos h2]; rfl
          · rw [if_neg h2]
            by_cases h1 : as_set = s
            · subst h1
              rcases hrr with rfl | hrr
              · exact absurd rfl h2
              · obtain ⟨m, hmm, hdm, hrm⟩ := hdecomp t hrr hkt
                exact (hdom t).mpr (Or.inr ⟨m, mem_sortFin.mpr hmm, hdm, hrm, hkt⟩)
            · rw [if_neg h1] at hs
              exact hmemo'.2.2 s t hs hrr hkt
      · -- the new memo domain
        intro t
        simp only
        rw [lookupA_setA]
        by_cases h : as_set = t
        · subst h
          rw [if_pos rfl]
          simp only [Option.isSome_some, true_iff]
          exact Or.inr ⟨Or.inl rfl, hkey⟩
        · rw [if_neg h, hdom t]
          constructor
          · rintro (hst | ⟨m, hmm, hdm, hrm, hkt⟩)
            · exact Or.inl hst
            · refine Or.inr ⟨?_, hkt⟩
              exact rreach_trans (Or.inr (.single hg (mem_sortFin.mp hmm))) hrm
          · rintro (hst | ⟨hrr, hkt⟩)
            · exact Or.inl hst
            · rcases hrr with rfl | hrr
              · exact absurd rfl h
              · obtain ⟨m, hmm, hdm, hrm⟩ := hdecomp t hrr hkt
                exact Or.inr ⟨m, mem_sortFin.mpr hmm, hdm, hrm, hkt⟩

/-! ## Small inversion helpers for concrete graphs -/

theorem lookupA_singleton_isSome {k t : String} {v : Finset String}
    (h : (lookupA [(k, v)] t).isSome) : k = t := by
  by_cases hk : k = t
  · exact hk
  · simp [lookupA, hk] at h

theorem lookupA_singleton_eq {k t : String} {v ms : Finset String}
    (h : lookupA [(k, v)] t = some ms) : k = t ∧ ms = v := by
  by_cases hk : k = t
  · simp only [lookupA, if_pos hk] at h
    injection h with h
    exact ⟨hk, h.symm⟩
  · simp [lookupA, hk] at h

theorem lookupA_pair_eq {k1 k2 t : String} {v1 v2 ms : Finset String}
    (h : lookupA [(k1, v1), (k2, v2)] t = some ms) :
    (k1 = t ∧ ms = v1) ∨ (k2 = t ∧ ms = v2) := by
  by_cases hk : k1 = t
  · simp only [lookupA, if_pos hk] at h
    injection h with h
    exact Or.inl ⟨hk, h.symm⟩
  · simp only [lookupA, if_neg hk] at h
    exact Or.inr (lookupA_singleton_eq h)

/-! ## Claim theorems: graph transforms and origin resolver -/

/-- C3: the De-cycle transform as specified — "for every reachable membership
graph it returns, without failing, a same-node-set graph with the back-edges
removed" — is the intent, but the source's second sanity `assert` in
`remove_recursivity_from_tree` demands
`original member set == new member set ∪ {root}`, which fails on any graph
with no edge back into the root: on the plain acyclic graph
`{AS-A: {AS1}}` the function raises `AssertionError` instead of returning
the unchanged graph.  On the spec's cyclic example the function does return
the claimed value. -/
theorem removeRecursivity_assert_bug :
    removeRecursivityFromTree "AS-A" [("AS-A", {"AS1"})] =
      .error (.assertError "member sets differ by more than the root") ∧
    removeRecursivityFromTree "AS-A" [("AS-A", {"AS-B"}), ("AS-B", {"AS-A", "AS1"})] =
      .ok ([("AS-A", {"AS-B"}), ("AS-B", {"AS1"})], {("AS-B", "AS-A")}) := by
  decide

/-- C1: on the cyclic graph `{AS-A: {AS-B}, AS-B: {AS-A, AS1}}` the resolver
finishes from root `AS-A` with recursive parent `none`, an empty
deferred-resolution table, and closure `{AS1}` for both AS-SETs; the wrapper
(whose asserts re-check exactly this) succeeds with both closures `{AS1}`. -/
theorem originResolver_cycle_example :
    getOriginAsns [("AS-A", {"AS-B"}), ("AS-B", {"AS-A", "AS1"})] 3 "AS-A" [] ⟨[], []⟩ =
      .ok (none, {"AS1"}, ⟨[("AS-A", {"AS1"}), ("AS-B", {"AS1"})], []⟩) ∧
    getOriginAsnsFromMembers "AS-A" [("AS-A", {"AS-B"}), ("AS-B", {"AS-A", "AS1"})] =
      .ok [("AS-A", {"AS1"}), ("AS-B", {"AS1"})] := by
  decide

/-- C2: on a membership graph whose keys are AS-SETs, in which every AS-SET
member appears as a key, and which has no cycles among its keys, the
resolver computes for every AS-SET `s` of the graph exactly the set of
AUT-NUM identifiers transitively reachable from `s` (excluding `s` itself,
which is vacuous for an acyclic graph), with no recursive parent. -/
theorem originResolver_acyclic_closure (g : GMap) (s : String)
    (hkeys : ∀ t, (lookupA g t).isSome → dashIn t = true)
    (hcomplete : ∀ t ms m, lookupA g t = some ms → m ∈ ms → dashIn m = true →
      (lookupA g m).isSome)
    (hacyclic : ∀ t, (lookupA g t).isSome → ¬ Reaches g t t)
    (hs : (lookupA g s).isSome) :
    ∃ v st',
      getOriginAsns g (g.length + 1) s [] ⟨[], []⟩ = .ok (none, v, st') ∧
      (∀ a, a ∈ v ↔ (Reaches g s a ∧ dashIn a = false ∧ a ≠ s)) := by
  have hA : ∀ t, RReach g s t → ¬ Reaches g t t := by
    intro t _ hloop
    by_cases hk : (lookupA g t).isSome
    · exact hacyclic t hk hloop
    · exact hk (reaches_first_edge hloop)
  have hC : ∀ t, RReach g s t → dashIn t = true → (lookupA g t).isSome := by
    intro t hrt hdt
    rcases hrt with rfl | hrt
    · exact hs
    · obtain ⟨u, ms, hu, hm⟩ := reaches_last_edge hrt
      exact hcomplete u ms t hu hm hdt
  have hK : ∀ t, RReach g s t → (lookupA g t).isSome → dashIn t = true :=
    fun t _ hk => hkeys t hk
  have hmemo0 : MemoOK g [] := by
    refine ⟨?_, ?_, ?_⟩
    · intro t ht; simp [lookupA] at ht
    · intro t v ht; simp [lookupA] at ht
    · intro t u ht; simp [lookupA] at ht
  obtain ⟨v, st', hrun, _, _, hval, _⟩ :=
    getOriginAsns_acyclic g s hA hC hK (g.length + 1) s [] ⟨[], []⟩ .nil
      (hkeys s hs) hmemo0 rfl (by simp)
  refine ⟨v, st', hrun, ?_⟩
  intro a
  rw [hval a]
  constructor
  · rintro ⟨hr, hda⟩
    refine ⟨hr, hda, ?_⟩
    intro has
    subst has
    rw [hkeys a hs] at hda
    cases hda
  · rintro ⟨hr, hda, _⟩
    exact ⟨hr, hda⟩

/-- C10: `get_origin_asns_from_members` succeeds only when the computed
closure map covers exactly the input graph's keys (its third `assert`); and
on any graph that contains a key not reachable from the root it raises even
when the reachable portion is complete and acyclic, since the resolver only
ever memoizes reachable AS-SETs. -/
theorem originResolver_unreachable_key_asserts (g : GMap) (root k : String)
    (hdroot : dashIn root = true)
    (hCr : ∀ t, RReach g root t → dashIn t = true → (lookupA g t).isSome)
    (hKr : ∀ t, RReach g root t → (lookupA g t).isSome → dashIn t = true)
    (hAr : ∀ t, RReach g root t → ¬ Reaches g t t)
    (hk : (lookupA g k).isSome) (hknr : ¬ RReach g root k) :
    (∀ (root' : String) (g' out : GMap), getOriginAsnsFromMembers root' g' = .ok out →
      keysFinset out = keysFinset g') ∧
    (∃ e, getOriginAsnsFromMembers root g = .error e) := by
  constructor
  · intro root' g' out hrun
    simp only [getOriginAsnsFromMembers, bind, Except.bind] at hrun
    split at hrun
    · cases hrun
    next p heq =>
      obtain ⟨rp, v, st⟩ := p
      split at hrun
      · cases hrun
      split at hrun
      · cases hrun
      split at hrun
      · cases hrun
      next hkeq =>
        cases hrun
        by_cases h : keysFinset st.memo = keysFinset g'
        · exact h
        · exact absurd h (by simpa using hkeq)
  · have hrootkey : (lookupA g root).isSome := hCr root (rreach_refl root) hdroot
    have hmemo0 : MemoOK g [] := by
      refine ⟨?_, ?_, ?_⟩
      · intro t ht; simp [lookupA] at ht
      · intro t v ht; simp [lookupA] at ht
      · intro t u ht; simp [lookupA] at ht
    obtain ⟨v, st', hrun, htab', _, _, hdom⟩ :=
      getOriginAsns_acyclic g root hAr hCr hKr (g.length + 1) root [] ⟨[], []⟩ .nil
        hdroot hmemo0 rfl (by simp)
    have hkmiss : ¬ (lookupA st'.memo k).isSome := by
      rw [hdom k]
      rintro (h | ⟨hrr, _⟩)
      · simp [lookupA] at h
      · exact hknr hrr
    have hne : keysFinset st'.memo ≠ keysFinset g := by
      intro h
      apply hkmiss
      rw [← mem_keysFinset, h, mem_keysFinset]
      exact hk
    refine ⟨.assertError "we did not find the origin ases for all as-sets on the tree", ?_⟩
    simp only [getOriginAsnsFromMembers, bind, Except.bind, hrun]
    rw [if_neg (by simp), if_neg (by simpa using htab'), if_pos (by simpa using hne)]

/-- C6: leaf-reachability prune on `{AS-A: {AS-B, AS1}, AS-B: {AS2}}` with
allowed set `{AS2}` keeps exactly `AS-A ↦ {AS-B}` and `AS-B ↦ {AS2}`; and in
general every successful prune output maps each recorded AS-SET to a
non-empty member set whose AS-SET members are themselves recorded (so an
AS-SET with no retained members is absent both as a key and as a member). -/
theorem filterAutnum_prune (root : String) (allowed : Finset String) (g out : GMap)
    (hrun : filterAutnum root allowed g = .ok out) :
    (filterAutnum "AS-A" {"AS2"} [("AS-A", {"AS-B", "AS1"}), ("AS-B", {"AS2"})] =
      .ok [("AS-B", {"AS2"}), ("AS-A", {"AS-B"})]) ∧
    (∀ k v, lookupA out k = some v →
      v ≠ ∅ ∧ ∀ m ∈ v, dashIn m = true → m ∈ keysFinset out) := by
  constructor
  · decide
  · simp only [filterAutnum, Except.map] at hrun
    split at hrun
    · cases hrun
    next st' haux =>
      injection hrun with hrun
      subst hrun
      have hInv0 : PruneInv ([] : GMap) := by
        intro k v hkv
        simp [lookupA] at hkv
      have := (filterAutnumAux_inv g allowed (g.length + 2) root ∅ ⟨[], ∅⟩ st' haux hInv0).1
      intro k v hkv
      obtain ⟨h1, h2⟩ := this k v hkv
      refine ⟨h1, ?_⟩
      intro m hm hdm
      rw [mem_keysFinset]
      exact h2 m hm hdm

/-- Witness for C2 at the concrete acyclic graph `{AS-X: {AS7}}`. -/
theorem originResolver_acyclic_closure_witness :
    ∃ v st',
      getOriginAsns [("AS-X", {"AS7"})] 2 "AS-X" [] ⟨[], []⟩ = .ok (none, v, st') ∧
      (∀ a, a ∈ v ↔ (Reaches [("AS-X", {"AS7"})] "AS-X" a ∧ dashIn a = false ∧
        a ≠ "AS-X")) := by
  apply originResolver_acyclic_closure [("AS-X", {"AS7"})] "AS-X"
  · intro t ht
    have h := lookupA_singleton_isSome ht
    subst h
    decide
  · intro t ms m hl hm hdm
    obtain ⟨h1, h2⟩ := lookupA_singleton_eq hl
    subst h2
    have hm' := Finset.mem_singleton.mp hm
    subst hm'
    exact absurd hdm (by decide)
  · intro t ht hloop
    have h1 := lookupA_singleton_isSome ht
    subst h1
    obtain ⟨u, ms, hu, hm⟩ := reaches_last_edge hloop
    obtain ⟨hu1, hu2⟩ := lookupA_singleton_eq hu
    subst hu2
    have := Finset.mem_singleton.mp hm
    exact absurd this (by decide)
  · decide

/-- Witness for C10 at `{AS-T: {AS9}, AS-U: {AS8}}` with root `AS-T` and
unreachable key `AS-U`. -/
theorem originResolver_unreachable_key_asserts_witness :
    (∀ (root' : String) (g' out : GMap), getOriginAsnsFromMembers root' g' = .ok out →
      keysFinset out = keysFinset g') ∧
    (∃ e, getOriginAsnsFromMembers "AS-T" [("AS-T", {"AS9"}), ("AS-U", {"AS8"})] =
      .error e) := by
  have hreach : ∀ t, Reaches [("AS-T", ({"AS9"} : Finset String)), ("AS-U", {"AS8"})]
      "AS-T" t → t = "AS9" := by
    intro t h
    cases h with
    | single hl hm =>
      rcases lookupA_pair_eq hl with ⟨_, h2⟩ | ⟨h1, _⟩
      · subst h2
        exact Finset.mem_singleton.mp hm
      · exact absurd h1 (by decide)
    | head hl hm hr =>
      rcases lookupA_pair_eq hl with ⟨_, h2⟩ | ⟨h1, _⟩
      · subst h2
        have hmid := Finset.mem_singleton.mp hm
        subst hmid
        exact absurd (reaches_first_edge hr) (by decide)
      · exact absurd h1 (by decide)
  apply originResolver_unreachable_key_asserts
    [("AS-T", {"AS9"}), ("AS-U", {"AS8"})] "AS-T" "AS-U"
  · decide
  · intro t hrt hdt
    rcases hrt with rfl | hr
    · decide
    · have := hreach t hr
      subst this
      exact absurd hdt (by decide)
  · intro t hrt hk
    rcases hrt with rfl | hr
    · decide
    · have := hreach t hr
      subst this
      exact absurd hk (by decide)
  · intro t hrt hloop
    rcases hrt with rfl | hr
    · exact absurd (hreach _ hloop) (by decide)
    · have := hreach t hr
      subst this
      exact absurd (reaches_first_edge hloop) (by decide)
  · decide
  · intro hrr
    rcases hrr with h | hr
    · exact absurd h (by decide)
    · exact absurd (hreach _ hr) (by decide)

/-- Witness for C6 at its own concrete example. -/
theorem filterAutnum_prune_witness :
    (filterAutnum "AS-A" {"AS2"} [("AS-A", {"AS-B", "AS1"}), ("AS-B", {"AS2"})] =
      .ok [("AS-B", {"AS2"}), ("AS-A", {"AS-B"})]) ∧
    (∀ k v, lookupA [("AS-B", ({"AS2"} : Finset String)), ("AS-A", {"AS-B"})] k = some v →
      v ≠ ∅ ∧ ∀ m ∈ v, dashIn m = true →
        m ∈ keysFinset [("AS-B", {"AS2"}), ("AS-A", {"AS-B"})]) :=
  filterAutnum_prune "AS-A" {"AS2"} [("AS-A", {"AS-B", "AS1"}), ("AS-B", {"AS2"})]
    [("AS-B", {"AS2"}), ("AS-A", {"AS-B"})] (by decide)

/-! ## Protocol session (`Worker` in `query_workers.py`)

A session is modeled against a script: the list of lines the socket will
yield, in order.  `receive()` returns `line.decode()[:-1]`, so end-of-stream
is the empty string; a script that has run out keeps yielding `""`. -/

/-- Per-session state: the remaining-restart counter (`self.restarts`). -/
structure WorkerSt where
  restarts : Int
  deriving DecidableEq

/-- Embedding of `Worker.__init__`: the counter is initialized once from
`server.max_restarts` and never reset afterwards (`restart()` only re-runs
`initialize()`, which does not touch it). -/
def mkWorker (maxRestarts : Int) : WorkerSt := ⟨maxRestarts⟩

/-- Embedding of `Worker.send_and_receive`: loop sending the command and reading a line;
an empty line decrements the counter, fails once the counter would go below
zero, otherwise restarts the connection (the script simply continues) and
retries.  An exhausted script yields `""` forever, which deterministically
drains the remaining budget and fails, so it is collapsed to the failure. -/
def sendAndReceive : List String → Int → Except String (String × List String × Int)
  | [], _ => .error "We got to the limit of restarts, failing"
  | resp :: rest, restarts =>
    if resp = "" then
      if restarts - 1 < 0 then .error "We got to the limit of restarts, failing"
      else sendAndReceive rest (restarts - 1)
    else .ok (resp, rest, restarts)

/-- The `send_and_receive` call threading the worker state. -/
def workerSendRecv (st : WorkerSt) (lines : List String) :
    Except String (String × List String × WorkerSt) :=
  match sendAndReceive lines st.restarts with
  | .error e => .error e
  | .ok (resp, rest, r) => .ok (resp, rest, ⟨r⟩)

/-- Two consecutive queries on one session: the counter of the first carries
into the second. -/
def twoQueries (st : WorkerSt) (lines1 lines2 : List String) :
    Except String (String × String × WorkerSt) :=
  match workerSendRecv st lines1 with
  | .error e => .error e
  | .ok (r1, _, st1) =>
    match workerSendRecv st1 lines2 with
    | .error e => .error e
    | .ok (r2, _, st2) => .ok (r1, r2, st2)

/-- Reading one line from the script (`receive()`). -/
def recvLine : List String → String × List String
  | [] => ("", [])
  | l :: rest => (l, rest)

/-- Python `str.split()` with no arguments: split on whitespace runs,
dropping empty tokens. -/
def splitWsAux : List Char → List Char → List (List Char)
  | [], acc => [acc.reverse]
  | c :: rest, acc =>
    if c.isWhitespace then acc.reverse :: splitWsAux rest []
    else splitWsAux rest (c :: acc)

def pySplitWs (s : String) : List String :=
  ((splitWsAux s.data []).map String.mk).filter (fun t => ¬ t = "")

/-- The message of the exception `Worker.query` raises on an `F` reply; it
embeds the full server answer (and therefore the server-supplied text). -/
def queryErrMsg (wid : Nat) (query answer : String) : String :=
  "w" ++ toString wid ++ ": Error on query " ++ query ++ ", answer was " ++ answer

/-- The response dispatch of `Worker.query` (lines 125-147) on the reply
line `answer`, with `rest` the remaining lines of the script.  Returns the
result set and the list of warnings logged. -/
def queryDispatch (wid : Nat) (query answer : String) (rest : List String) :
    Except String (Finset String × List String) :=
  if answer = "D" then .ok (∅, [])
  else
    match answer.data with
    | [] => .error "IndexError: string index out of range"
    | c :: _ =>
      if c = 'F' then .error (queryErrMsg wid query answer)
      else if c = 'A' then
        let pr := recvLine rest
        let results := (pySplitWs pr.1).toFinset
        let cr := recvLine pr.2
        if cr.1 = "C" then .ok (results, [])
        else .ok (results,
          ["Error: something went wrong with: " ++ query ++ ". Not closing with C"])
      else .ok (∅, ["Response for query not processed. Query is " ++ query])

/-- Embedding of `Worker.query(cmd, as_set, recurse)` against a script. -/
def workerQuery (wid : Nat) (st : WorkerSt) (cmd obj : String) (recurse : Bool)
    (lines : List String) : Except String (Finset String × List String × WorkerSt) :=
  let q := "!" ++ cmd ++ obj ++ (if recurse then ",1" else "")
  match sendAndReceive lines st.restarts with
  | .error e => .error e
  | .ok (answer, rest, r) =>
    match queryDispatch wid q answer rest with
    | .error e => .error e
    | .ok (res, warns) => .ok (res, warns, ⟨r⟩)

/-! ## Member validation (`Worker.get_members` and the `datamodels` regexes) -/

/-- Pattern `re_asn = ^[aA][sS]\d+` under `re.match` (prefix match). -/
def re_asn (s : String) : Bool :=
  match s.data with
  | c1 :: c2 :: c3 :: _ =>
    ((c1 == 'a') || (c1 == 'A')) && ((c2 == 's') || (c2 == 'S')) && c3.isDigit
  | _ => false

/-- Pattern `re_as_set = ^[aA][sS]-.*` under `re.match`. -/
def re_as_set (s : String) : Bool :=
  match s.data with
  | c1 :: c2 :: c3 :: _ =>
    ((c1 == 'a') || (c1 == 'A')) && ((c2 == 's') || (c2 == 'S')) && (c3 == '-')
  | _ => false

/-- Pattern `re_starts_asn = ^[aA][sS]`. -/
def re_starts_asn (s : String) : Bool :=
  match s.data with
  | c1 :: c2 :: _ => ((c1 == 'a') || (c1 == 'A')) && ((c2 == 's') || (c2 == 'S'))
  | _ => false

/-- Predicate `is_as_set` from `datamodels.py`. -/
def is_as_set (s : String) : Bool := re_starts_asn s && dashIn s

/-- Python `str.upper()` (identifiers here are ASCII). -/
def pyUpper (s : String) : String := String.mk (s.data.map Char.toUpper)

/-- The warning `get_members` logs for a token matching neither pattern. -/
def memberWarn (as_set token : String) : String :=
  "Warning: not honoring mbrs-by-ref for object " ++ as_set ++ " with " ++ token

/-- One iteration of the validation loop in `get_members`. -/
def memberStep (as_set : String) (acc : Finset String × List String) (r : String) :
    Finset String × List String :=
  if re_asn r then (insert (pyUpper r) acc.1, acc.2)
  else if re_as_set r then (insert (pyUpper r) acc.1, acc.2)
  else (acc.1, acc.2 ++ [memberWarn as_set r])

/-- Embedding of `Worker.get_members` applied to the token list returned by the member
query: keep (upper-cased) tokens matching `re_asn` or `re_as_set`, warn on
and drop everything else. -/
def getMembers (as_set : String) (tokens : List String) :
    Except String (Finset String × List String) :=
  if ¬ is_as_set as_set then
    .error ("Trying to get members from " ++ as_set ++
      " which does not look like an as-set")
  else
    .ok (tokens.foldl (memberStep as_set) (∅, []))

/-! ## Crawl coordinator (`join_queue_or_workers`) -/

/-- A task handed to `asyncio.wait`: the `queue.join()` task or a worker
task (a worker task only ever finishes by raising, so its outcome is the
exception it carries, if any). -/
inductive ATask
  | queueJoin
  | worker (id : Nat) (exc : Option String)
  deriving DecidableEq

/-- Iterating `done` as the source's `for task in done` does: the first
non-queue-join task with a non-`None` exception. -/
def firstWorkerError : List ATask → Option String
  | [] => none
  | .queueJoin :: rest => firstWorkerError rest
  | .worker _ none :: rest => firstWorkerError rest
  | .worker _ (some e) :: _ => some e

/-- Embedding of `join_queue_or_workers` after `asyncio.wait(FIRST_COMPLETED)` returned
the partition `done`/`pending`.  Result: the error raised (if any) and the
list of tasks the function cancelled before returning/raising.  The `raise`
at line 306 exits before the cancellation at line 313 is ever reached. -/
def joinQueueOrWorkers (done pending : List ATask) : Option String × List ATask :=
  match firstWorkerError done with
  | some e => (some e, [])
  | none =>
    if ATask.queueJoin ∈ done then (none, pending)
    else (some "Main job did not finish..", [])

/-! ## Claim theorems: protocol session and coordinator -/

theorem sendAndReceive_replicate :
    ∀ (k : Nat) (b : Int) (resp : String) (rest : List String), resp ≠ "" →
      ((k : Int) ≤ b →
        sendAndReceive (List.replicate k "" ++ resp :: rest) b = .ok (resp, rest, b - k)) ∧
      (b < (k : Int) → 1 ≤ k →
        sendAndReceive (List.replicate k "" ++ resp :: rest) b =
          .error "We got to the limit of restarts, failing") := by
  intro k
  induction k with
  | zero =>
    intro b resp rest hr
    constructor
    · intro _
      simp [sendAndReceive, hr]
    · intro _ h1
      exact absurd h1 (by omega)
  | succ k ih =>
    intro b resp rest hr
    have hlist : List.replicate (k + 1) "" ++ resp :: rest =
        "" :: (List.replicate k "" ++ resp :: rest) := by
      simp [List.replicate_succ]
    have hstep : ∀ (l : List String) (bb : Int), sendAndReceive ("" :: l) bb =
        if bb - 1 < 0 then .error "We got to the limit of restarts, failing"
        else sendAndReceive l (bb - 1) := by
      intro l bb
      simp [sendAndReceive]
    constructor
    · intro hb
      rw [hlist, hstep]
      have hb0 : ¬ (b - 1 < 0) := by
        push_cast at hb
        omega
      rw [if_neg hb0, (ih (b - 1) resp rest hr).1 (by push_cast at hb ⊢; omega)]
      have harith : b - 1 - (k : Int) = b - ((k + 1 : Nat) : Int) := by
        push_cast
        ring
      rw [harith]
    · intro hb h1
      rw [hlist, hstep]
      by_cases hb0 : b - 1 < 0
      · rw [if_pos hb0]
      · rw [if_neg hb0]
        rcases Nat.eq_zero_or_pos k with rfl | hk
        · exfalso
          push_cast at hb
          omega
        · exact (ih (b - 1) resp rest hr).2 (by push_cast at hb ⊢; omega) hk

/-- C9: each mid-query end-of-stream decrements the per-session restart
counter, initialized once from the configured budget (`max_restarts`) and
never reset between queries; while the counter stays non-negative the
session restarts and retries, and the read that would drive it below zero
fails the session permanently.  Concretely: a query preceded by `k1` EOFs
succeeds with counter `b - k1` iff `k1 ≤ b` and fails otherwise; a second
query on the same session starts from the decremented counter, so two
queries succeed iff `k1 + k2 ≤ b`. -/
theorem sessionRestartBudget (b : Int) (k1 k2 : Nat) (r1 r2 : String)
    (rest1 rest2 : List String) (h1 : r1 ≠ "") (h2 : r2 ≠ "") :
    (mkWorker b).restarts = b ∧
    ((k1 : Int) ≤ b →
      sendAndReceive (List.replicate k1 "" ++ r1 :: rest1) b = .ok (r1, rest1, b - k1)) ∧
    (b < (k1 : Int) → 1 ≤ k1 →
      sendAndReceive (List.replicate k1 "" ++ r1 :: rest1) b =
        .error "We got to the limit of restarts, failing") ∧
    ((k1 : Int) + (k2 : Int) ≤ b →
      twoQueries (mkWorker b) (List.replicate k1 "" ++ r1 :: rest1)
        (List.replicate k2 "" ++ r2 :: rest2) = .ok (r1, r2, ⟨b - k1 - k2⟩)) ∧
    ((k1 : Int) ≤ b → b < (k1 : Int) + (k2 : Int) →
      twoQueries (mkWorker b) (List.replicate k1 "" ++ r1 :: rest1)
        (List.replicate k2 "" ++ r2 :: rest2) =
          .error "We got to the limit of restarts, failing") := by
  refine ⟨rfl, (sendAndReceive_replicate k1 b r1 rest1 h1).1,
    (sendAndReceive_replicate k1 b r1 rest1 h1).2, ?_, ?_⟩
  · intro hb
    have hx1 := (sendAndReceive_replicate k1 b r1 rest1 h1).1 (by omega)
    have hx2 := (sendAndReceive_replicate k2 (b - k1) r2 rest2 h2).1 (by omega)
    simp only [twoQueries, workerSendRecv, mkWorker, hx1, hx2]
  · intro hb1 hb2
    have hx1 := (sendAndReceive_replicate k1 b r1 rest1 h1).1 hb1
    have hx2 := (sendAndReceive_replicate k2 (b - k1) r2 rest2 h2).2 (by omega) (by omega)
    simp only [twoQueries, workerSendRecv, mkWorker, hx1, hx2]

/-- Witness for C9 at `b = 1`, one EOF before each of two replies. -/
theorem sessionRestartBudget_witness :
    sendAndReceive (List.replicate 1 "" ++ "C" :: []) 1 = .ok ("C", [], 0) ∧
    twoQueries (mkWorker 1) (List.replicate 1 "" ++ "C" :: [])
      (List.replicate 1 "" ++ "D" :: []) =
        .error "We got to the limit of restarts, failing" := by
  have h := sessionRestartBudget 1 1 1 "C" "D" [] [] (by decide) (by decide)
  refine ⟨?_, ?_⟩
  · have := h.2.1 (by omega)
    simpa using this
  · exact h.2.2.2.2 (by omega) (by omega)

/-- C5: dispatch of `Worker.query` on the reply line: a reply equal to `D`
returns the empty set without error; a reply whose first byte is `F` always
raises, with a message that ends in the full server answer (and therefore
carries the server-supplied text); a non-empty reply whose first byte is
none of `D`, `F`, `A` returns the empty set with a warning and never
raises. -/
theorem queryDispatch_reply_grammar (wid : Nat) (q answer : String) (rest : List String) :
    (answer = "D" → queryDispatch wid q answer rest = .ok (∅, [])) ∧
    (∀ cs, answer.data = 'F' :: cs →
      queryDispatch wid q answer rest = .error (queryErrMsg wid q answer) ∧
      ∃ pre, queryErrMsg wid q answer = pre ++ answer) ∧
    (∀ c cs, answer.data = c :: cs → c ≠ 'D' → c ≠ 'F' → c ≠ 'A' →
      queryDispatch wid q answer rest =
        .ok (∅, ["Response for query not processed. Query is " ++ q])) := by
  refine ⟨?_, ?_, ?_⟩
  · intro h
    subst h
    simp [queryDispatch]
  · intro cs hdata
    have hne : answer ≠ "D" := by
      intro h
      subst h
      simp at hdata
    constructor
    · simp only [queryDispatch, if_neg hne, hdata]
      simp
    · exact ⟨"w" ++ toString wid ++ ": Error on query " ++ q ++ ", answer was ", rfl⟩
  · intro c cs hdata hcD hcF hcA
    have hne : answer ≠ "D" := by
      intro h
      subst h
      simp only [String.data] at hdata
      injection hdata with h1 _
      exact hcD h1.symm
    simp only [queryDispatch, if_neg hne, hdata]
    rw [if_neg hcF, if_neg hcA]

/-- Witness for C5 on the replies `"D"`, `"Fno entry"`, and `"%garbage"`. -/
theorem queryDispatch_reply_grammar_witness :
    queryDispatch 0 "!iAS-EX" "D" [] = .ok (∅, []) ∧
    queryDispatch 0 "!iAS-EX" "Fno entry" [] =
      .error (queryErrMsg 0 "!iAS-EX" "Fno entry") ∧
    queryDispatch 0 "!iAS-EX" "%garbage" [] =
      .ok (∅, ["Response for query not processed. Query is !iAS-EX"]) := by
  refine ⟨(queryDispatch_reply_grammar 0 "!iAS-EX" "D" []).1 rfl,
    ((queryDispatch_reply_grammar 0 "!iAS-EX" "Fno entry" []).2.1
      "no entry".data rfl).1,
    (queryDispatch_reply_grammar 0 "!iAS-EX" "%garbage" []).2.2 '%' "garbage".data
      rfl (by decide) (by decide) (by decide)⟩

/-- C8: `get_members` keeps exactly the tokens matching `re_asn` (prefix
`AS` + digit, case-insensitive) or `re_as_set` (prefix `AS-`,
case-insensitive), upper-casing each kept token, and logs a warning for
every other token while never raising on it. -/
theorem getMembers_validation (as_set : String) (tokens : List String)
    (hset : is_as_set as_set = true) :
    ∃ mem warns, getMembers as_set tokens = .ok (mem, warns) ∧
      (∀ x, x ∈ mem ↔ ∃ t ∈ tokens, (re_asn t || re_as_set t) = true ∧ x = pyUpper t) ∧
      (∀ t ∈ tokens, (re_asn t || re_as_set t) = false → memberWarn as_set t ∈ warns) := by
  have hfold : ∀ (ts : List String) (acc : Finset String × List String),
      (∀ x, x ∈ (ts.foldl (memberStep as_set) acc).1 ↔
        x ∈ acc.1 ∨ ∃ t ∈ ts, (re_asn t || re_as_set t) = true ∧ x = pyUpper t) ∧
      (∀ w, w ∈ (ts.foldl (memberStep as_set) acc).2 ↔
        w ∈ acc.2 ∨ ∃ t ∈ ts, (re_asn t || re_as_set t) = false ∧
          w = memberWarn as_set t) := by
    intro ts
    induction ts with
    | nil =>
      intro acc
      constructor
      · intro x; simp
      · intro w; simp
    | cons r rest ih =>
      intro acc
      constructor
      · intro x
        rw [List.foldl_cons, (ih (memberStep as_set acc r)).1 x]
        simp only [List.mem_cons, memberStep]
        by_cases h1 : re_asn r
        · simp only [if_pos h1, Finset.mem_insert]
          constructor
          · rintro ((rfl | hx) | hx)
            · exact Or.inr ⟨r, Or.inl rfl, by simp [h1]⟩
            · exact Or.inl hx
            · obtain ⟨t, ht, hc⟩ := hx
              exact Or.inr ⟨t, Or.inr ht, hc⟩
          · rintro (hx | ⟨t, rfl | ht, hc⟩)
            · exact Or.inl (Or.inr hx)
            · exact Or.inl (Or.inl hc.2)
            · exact Or.inr ⟨t, ht, hc⟩
        · rw [if_neg h1]
          by_cases h2 : re_as_set r
          · simp only [if_pos h2, Finset.mem_insert]
            constructor
            · rintro ((rfl | hx) | hx)
              · exact Or.inr ⟨r, Or.inl rfl, by simp [h2]⟩
              · exact Or.inl hx
              · obtain ⟨t, ht, hc⟩ := hx
                exact Or.inr ⟨t, Or.inr ht, hc⟩
            · rintro (hx | ⟨t, rfl | ht, hc⟩)
              · exact Or.inl (Or.inr hx)
              · exact Or.inl (Or.inl hc.2)
              · exact Or.inr ⟨t, ht, hc⟩
          · rw [if_neg h2]
            constructor
            · rintro (hx | hx)
              · exact Or.inl hx
              · obtain ⟨t, ht, hc⟩ := hx
                exact Or.inr ⟨t, Or.inr ht, hc⟩
            · rintro (hx | ⟨t, rfl | ht, hc⟩)
              · exact Or.inl hx
              · rcases Bool.or_eq_true_iff.mp hc.1 with h | h
                · exact absurd h h1
                · exact absurd h h2
              · exact Or.inr ⟨t, ht, hc⟩
      · intro w
        rw [List.foldl_cons, (ih (memberStep as_set acc r)).2 w]
        simp only [List.mem_cons, memberStep]
        by_cases h1 : re_asn r
        · simp only [if_pos h1]
          constructor
          · rintro (hw | ⟨t, ht, hc⟩)
            · exact Or.inl hw
            · exact Or.inr ⟨t, Or.inr ht, hc⟩
          · rintro (hw | ⟨t, rfl | ht, hc⟩)
            · exact Or.inl hw
            · rw [Bool.or_eq_false_iff] at hc
              exact absurd h1 (by simp [hc.1.1])
            · exact Or.inr ⟨t, ht, hc⟩
        · rw [if_neg h1]
          by_cases h2 : re_as_set r
          · simp only [if_pos h2]
            constructor
            · rintro (hw | ⟨t, ht, hc⟩)
              · exact Or.inl hw
              · exact Or.inr ⟨t, Or.inr ht, hc⟩
            · rintro (hw | ⟨t, rfl | ht, hc⟩)
              · exact Or.inl hw
              · rw [Bool.or_eq_false_iff] at hc
                exact absurd h2 (by simp [hc.1.2])
              · exact Or.inr ⟨t, ht, hc⟩
          · rw [if_neg h2]
            simp only [List.mem_append, List.mem_singleton]
            constructor
            · rintro ((hw | hw) | ⟨t, ht, hc⟩)
              · exact Or.inl hw
              · exact Or.inr ⟨r, Or.inl rfl,
                  by simp [Bool.or_eq_false_iff, h1, h2], hw⟩
              · exact Or.inr ⟨t, Or.inr ht, hc⟩
            · rintro (hw | ⟨t, rfl | ht, hc⟩)
              · exact Or.inl (Or.inl hw)
              · exact Or.inl (Or.inr hc.2)
              · exact Or.inr ⟨t, ht, hc⟩
  refine ⟨(tokens.foldl (memberStep as_set) (∅, [])).1,
    (tokens.foldl (memberStep as_set) (∅, [])).2, ?_, ?_, ?_⟩
  · simp [getMembers, hset]
  · intro x
    rw [(hfold tokens (∅, [])).1 x]
    simp
  · intro t ht hmatch
    rw [(hfold tokens (∅, [])).2 (memberWarn as_set t)]
    exact Or.inr ⟨t, ht, hmatch, rfl⟩

/-- Witness for C8 on `AS-EX` with tokens `as1`, `as-foo`, `MNT-X`. -/
theorem getMembers_validation_witness :
    ∃ mem warns, getMembers "AS-EX" ["as1", "as-foo", "MNT-X"] = .ok (mem, warns) ∧
      (∀ x, x ∈ mem ↔ ∃ t ∈ ["as1", "as-foo", "MNT-X"],
        (re_asn t || re_as_set t) = true ∧ x = pyUpper t) ∧
      (∀ t ∈ ["as1", "as-foo", "MNT-X"], (re_asn t || re_as_set t) = false →
        memberWarn "AS-EX" t ∈ warns) :=
  getMembers_validation "AS-EX" ["as1", "as-foo", "MNT-X"] (by decide)

/-- C4 counterexample: with one worker finished in error and another still
pending, `join_queue_or_workers` raises the error but cancels nothing — the
`raise` exits before the cancellation line is reached, so the still-running
worker is not cancelled as the claim asserts. -/
theorem joinQueue_no_cancel_counterexample :
    (joinQueueOrWorkers [.worker 0 (some "boom")] [.worker 1 none]).1 = some "boom" ∧
    ¬ ATask.worker 1 none ∈
      (joinQueueOrWorkers [.worker 0 (some "boom")] [.worker 1 none]).2 := by
  decide

/-- C4 (amended): if any worker task finished in error before the queue
drained, the coordinator raises that worker's error (the first such in
completion order) so the phase fails — but it cancels no other task on that
path; the pending tasks are cancelled only on the queue-drained path. -/
theorem joinQueue_failfast (done pending : List ATask) :
    (∀ e, firstWorkerError done = some e →
      joinQueueOrWorkers done pending = (some e, [])) ∧
    (firstWorkerError done = none → ATask.queueJoin ∈ done →
      joinQueueOrWorkers done pending = (none, pending)) := by
  constructor
  · intro e he
    simp [joinQueueOrWorkers, he]
  · intro hn hq
    simp [joinQueueOrWorkers, hn, hq]

/-- Witness for the amended C4. -/
theorem joinQueue_failfast_witness :
    joinQueueOrWorkers [.worker 0 (some "boom")] [.worker 1 none] = (some "boom", []) ∧
    joinQueueOrWorkers [.queueJoin] [.worker 1 none] = (none, [.worker 1 none]) :=
  ⟨(joinQueue_failfast [.worker 0 (some "boom")] [.worker 1 none]).1 "boom" rfl,
   (joinQueue_failfast [.queueJoin] [.worker 1 none]).2 rfl (by decide)⟩

/-! ## Aggregator (`irrtree_process` lines 432-446) -/

/-- Grouping `assets_per_origin_as_set`: group the AS-SETs by their (frozen) closure,
iterating `origin_ases_per_asset` in insertion order. -/
def buildGroups (origin : List (String × Finset String)) :
    List (Finset String × Finset String) :=
  origin.foldl (fun acc p => addSetA acc p.2 p.1) []

/-- Union `this_prefix_set`: the union of the prefix sets of the closure's
AUT-NUMs, raising if one of them was not preloaded. -/
def unionPrefixSet (prefixMap : GMap) (cl : Finset String) : Except PyErr (Finset String) :=
  (sortFin cl).foldlM (fun acc asn =>
    match lookupA prefixMap asn with
    | none => .error (.exception ("We did not preload prefixes for " ++ asn))
    | some ps => .ok (acc ∪ ps)) ∅

/-- The assignment loop: for each distinct closure compute the prefix union
once, then assign its size and the closure's cardinality to every AS-SET of
the group. -/
def assignCounts (prefixMap : GMap) :
    List (Finset String × Finset String) → List (String × Nat) × List (String × Nat) →
      Except PyErr (List (String × Nat) × List (String × Nat))
  | [], acc => .ok acc
  | (cl, assets) :: rest, acc => do
    let ps ← unionPrefixSet prefixMap cl
    assignCounts prefixMap rest
      ((sortFin assets).foldl (fun m a => setA m a ps.card) acc.1,
       (sortFin assets).foldl (fun m a => setA m a cl.card) acc.2)

/-- Maps `number_prefixes_per_asset` and `number_origin_asn_per_asset` as computed
by the aggregation step. -/
def aggregateCounts (origin : List (String × Finset String)) (prefixMap : GMap) :
    Except PyErr (List (String × Nat) × List (String × Nat)) :=
  assignCounts prefixMap (buildGroups origin) ([], [])

/-! ### Support lemmas for the aggregator -/

section MoreMapLemmas

variable {α β : Type} [DecidableEq α]

theorem lookupA_append (m1 m2 : List (α × β)) (key : α) :
    lookupA (m1 ++ m2) key =
      match lookupA m1 key with
      | some v => some v
      | none => lookupA m2 key := by
  induction m1 with
  | nil => simp [lookupA]
  | cons p rest ih =>
    obtain ⟨k0, v0⟩ := p
    by_cases h : k0 = key
    · simp [lookupA, h]
    · simp [lookupA, h, ih]

theorem keysList_setA (m : List (α × β)) (k : α) (v : β) :
    keysList (setA m k v) =
      if (lookupA m k).isSome then keysList m else keysList m ++ [k] := by
  induction m with
  | nil => simp [setA, keysList, lookupA]
  | cons p rest ih =>
    obtain ⟨k0, v0⟩ := p
    by_cases h : k0 = k
    · simp [setA, lookupA, keysList, h]
    · have hlk : lookupA ((k0, v0) :: rest) k = lookupA rest k := by
        simp [lookupA, h]
      have hset : setA ((k0, v0) :: rest) k v = (k0, v0) :: setA rest k v := by
        simp [setA, h]
      rw [hlk, hset]
      have hkl : keysList ((k0, v0) :: setA rest k v) = k0 :: keysList (setA rest k v) := rfl
      have hkl2 : keysList ((k0, v0) :: rest) = k0 :: keysList rest := rfl
      rw [hkl, hkl2, ih]
      by_cases h2 : (lookupA rest k).isSome
      · rw [if_pos h2, if_pos h2]
      · rw [if_neg h2, if_neg h2]
        rfl

theorem nodup_keys_setA {m : List (α × β)} (hnd : (keysList m).Nodup) (k : α) (v : β) :
    (keysList (setA m k v)).Nodup := by
  rw [keysList_setA]
  by_cases h : (lookupA m k).isSome
  · rw [if_pos h]
    exact hnd
  · rw [if_neg h]
    rw [List.nodup_append]
    refine ⟨hnd, List.nodup_singleton _, ?_⟩
    intro x hx hx1
    rcases List.mem_singleton.mp hx1 with rfl
    rw [← isSome_lookupA_iff_mem] at hx
    exact h hx

end MoreMapLemmas

theorem addSetA_lookup {α γ : Type} [DecidableEq α] [DecidableEq γ]
    (m : List (α × Finset γ)) (k : α) (x : γ) (key : α) :
    lookupA (addSetA m k x) key =
      if k = key then some (insert x ((lookupA m k).getD ∅)) else lookupA m key := by
  rcases h : lookupA m k with _ | s
  · simp only [addSetA, h, lookupA_append]
    by_cases hk : k = key
    · subst hk
      rw [h]
      simp [lookupA]
    · rw [if_neg hk]
      rcases h2 : lookupA m key with _ | v
      · simp [lookupA, fun hh => hk hh]
      · simp
  · simp only [addSetA, h, lookupA_setA]
    by_cases hk : k = key
    · simp [hk]
    · simp [hk]

theorem nodup_keys_addSetA {α γ : Type} [DecidableEq α] [DecidableEq γ]
    {m : List (α × Finset γ)} (hnd : (keysList m).Nodup) (k : α) (x : γ) :
    (keysList (addSetA m k x)).Nodup := by
  rcases h : lookupA m k with _ | s
  · simp only [addSetA, h, keysList, List.map_append]
    rw [List.nodup_append]
    refine ⟨hnd, List.nodup_singleton _, ?_⟩
    intro y hy hy1
    rcases List.mem_singleton.mp hy1 with rfl
    have : (lookupA m y).isSome := (isSome_lookupA_iff_mem m y).mpr hy
    rw [h] at this
    cases this
  · rw [show addSetA m k x = setA m k (insert x s) from by simp [addSetA, h]]
    exact nodup_keys_setA hnd k _

theorem lookupA_eq_of_mem_nodup {α β : Type} [DecidableEq α] {m : List (α × β)}
    (hnd : (keysList m).Nodup) {k : α} {v : β} (h : (k, v) ∈ m) :
    lookupA m k = some v := by
  induction m with
  | nil => exact absurd h (List.not_mem_nil _)
  | cons p rest ih =>
    obtain ⟨k0, v0⟩ := p
    simp only [keysList, List.map_cons, List.nodup_cons] at hnd
    rcases List.mem_cons.mp h with h1 | h1
    · injection h1 with h1 h2
      subst h1
      subst h2
      simp [lookupA]
    · have hk : k0 ≠ k := by
        intro hh
        subst hh
        exact hnd.1 (List.mem_map.mpr ⟨(k0, v), h1, rfl⟩)
      simp only [lookupA, if_neg hk]
      exact ih hnd.2 h1

theorem mem_of_lookupA {α β : Type} [DecidableEq α] {m : List (α × β)} {k : α} {v : β}
    (h : lookupA m k = some v) : (k, v) ∈ m := by
  induction m with
  | nil => simp [lookupA] at h
  | cons p rest ih =>
    obtain ⟨k0, v0⟩ := p
    by_cases hk : k0 = k
    · subst hk
      simp only [lookupA, if_pos rfl] at h
      injection h with h
      subst h
      exact List.mem_cons_self _ _
    · simp only [lookupA, if_neg hk] at h
      exact List.mem_cons_of_mem _ (ih h)

theorem value_unique_of_nodup {α β : Type} [DecidableEq α] {m : List (α × β)}
    (hnd : (keysList m).Nodup) {k : α} {v w : β} (hv : (k, v) ∈ m) (hw : (k, w) ∈ m) :
    v = w := by
  have h1 := lookupA_eq_of_mem_nodup hnd hv
  have h2 := lookupA_eq_of_mem_nodup hnd hw
  rw [h1] at h2
  injection h2

theorem foldl_addSetA_nodup :
    ∀ (rest : List (String × Finset String)) (acc : List (Finset String × Finset String)),
      (keysList acc).Nodup →
      (keysList (rest.foldl (fun a2 p => addSetA a2 p.2 p.1) acc)).Nodup := by
  intro rest
  induction rest with
  | nil => intro acc h; exact h
  | cons p r ih =>
    intro acc h
    rw [List.foldl_cons]
    exact ih _ (nodup_keys_addSetA h _ _)

theorem foldl_addSetA_sound :
    ∀ (rest : List (String × Finset String)) (acc : List (Finset String × Finset String))
      (cl : Finset String) (assets : Finset String) (x : String),
      lookupA (rest.foldl (fun a2 p => addSetA a2 p.2 p.1) acc) cl = some assets →
      x ∈ assets →
      (∃ s0, lookupA acc cl = some s0 ∧ x ∈ s0) ∨ (x, cl) ∈ rest := by
  intro rest
  induction rest with
  | nil =>
    intro acc cl assets x h hx
    exact Or.inl ⟨assets, h, hx⟩
  | cons p r ih =>
    obtain ⟨a0, c0⟩ := p
    intro acc cl assets x h hx
    simp only [List.foldl_cons] at h
    rcases ih _ cl assets x h hx with ⟨s0, hs0, hxs0⟩ | hmem
    · rw [addSetA_lookup] at hs0
      by_cases hc : c0 = cl
      · subst hc
        rw [if_pos rfl] at hs0
        injection hs0 with hs0
        subst hs0
        rcases Finset.mem_insert.mp hxs0 with rfl | hxold
        · exact Or.inr (List.mem_cons_self _ _)
        · rcases hl : lookupA acc c0 with _ | sold
          · rw [hl] at hxold
            simp at hxold
          · rw [hl] at hxold
            exact Or.inl ⟨sold, rfl, by simpa using hxold⟩
      · rw [if_neg hc] at hs0
        exact Or.inl ⟨s0, hs0, hxs0⟩
    · exact Or.inr (List.mem_cons_of_mem _ hmem)

theorem foldl_addSetA_complete :
    ∀ (rest : List (String × Finset String)) (acc : List (Finset String × Finset String))
      (x : String) (cl : Finset String),
      ((∃ s0, lookupA acc cl = some s0 ∧ x ∈ s0) ∨ (x, cl) ∈ rest) →
      ∃ assets, lookupA (rest.foldl (fun a2 p => addSetA a2 p.2 p.1) acc) cl = some assets ∧
        x ∈ assets := by
  intro rest
  induction rest with
  | nil =>
    intro acc x cl h
    rcases h with ⟨s0, hs0, hx⟩ | h
    · exact ⟨s0, hs0, hx⟩
    · exact absurd h (List.not_mem_nil _)
  | cons p r ih =>
    obtain ⟨a0, c0⟩ := p
    intro acc x cl h
    simp only [List.foldl_cons]
    apply ih
    rcases h with ⟨s0, hs0, hx⟩ | h
    · left
      by_cases hc : c0 = cl
      · subst hc
        refine ⟨insert a0 ((lookupA acc c0).getD ∅), ?_, ?_⟩
        · rw [addSetA_lookup, if_pos rfl]
        · rw [hs0]
          exact Finset.mem_insert_of_mem hx
      · refine ⟨s0, ?_, hx⟩
        rw [addSetA_lookup, if_neg hc]
        exact hs0
    · rcases List.mem_cons.mp h with heq | hmem
      · injection heq with h1 h2
        subst h1
        subst h2
        left
        refine ⟨_, by rw [addSetA_lookup, if_pos rfl], Finset.mem_insert_self _ _⟩
      · exact Or.inr hmem

theorem foldl_addSetA_nonempty :
    ∀ (rest : List (String × Finset String)) (acc : List (Finset String × Finset String))
      (cl s : Finset String),
      (∀ cl0 s0, lookupA acc cl0 = some s0 → s0.Nonempty) →
      lookupA (rest.foldl (fun a2 p => addSetA a2 p.2 p.1) acc) cl = some s →
      s.Nonempty := by
  intro rest
  induction rest with
  | nil =>
    intro acc cl s hacc h
    exact hacc cl s h
  | cons p r ih =>
    obtain ⟨a0, c0⟩ := p
    intro acc cl s hacc h
    rw [List.foldl_cons] at h
    refine ih _ cl s ?_ h
    intro cl0 s0 hs0
    rw [addSetA_lookup] at hs0
    by_cases hc : c0 = cl0
    · rw [if_pos hc] at hs0
      injection hs0 with hs0
      subst hs0
      exact Finset.insert_nonempty _ _
    · rw [if_neg hc] at hs0
      exact hacc cl0 s0 hs0

theorem unionPrefixSet_ok (prefixMap : GMap) (cl : Finset String)
    (h : ∀ asn ∈ cl, (lookupA prefixMap asn).isSome) :
    ∃ u, unionPrefixSet prefixMap cl = .ok u ∧
      ∀ p, p ∈ u ↔ ∃ asn ∈ cl, ∃ ps, lookupA prefixMap asn = some ps ∧ p ∈ ps := by
  have hgen : ∀ (l : List String), (∀ asn ∈ l, (lookupA prefixMap asn).isSome) →
      ∀ (acc : Finset String),
      ∃ u, (l.foldlM (fun acc2 asn =>
          match lookupA prefixMap asn with
          | none => Except.error (PyErr.exception ("We did not preload prefixes for " ++ asn))
          | some ps => Except.ok (acc2 ∪ ps)) acc : Except PyErr (Finset String)) = .ok u ∧
        ∀ p, p ∈ u ↔ p ∈ acc ∨ ∃ asn ∈ l, ∃ ps, lookupA prefixMap asn = some ps ∧ p ∈ ps := by
    intro l
    induction l with
    | nil =>
      intro _ acc
      refine ⟨acc, rfl, ?_⟩
      intro p
      simp
    | cons asn r ih =>
      intro hl acc
      have hasn : (lookupA prefixMap asn).isSome := hl asn (List.mem_cons_self _ _)
      obtain ⟨ps, hps⟩ := Option.isSome_iff_exists.mp hasn
      obtain ⟨u, hu, hmem⟩ := ih (fun a ha => hl a (List.mem_cons_of_mem _ ha)) (acc ∪ ps)
      refine ⟨u, ?_, ?_⟩
      · rw [List.foldlM_cons, hps]
        simpa using hu
      · intro p
        rw [hmem p]
        simp only [Finset.mem_union, List.mem_cons]
        constructor
        · rintro ((hp | hp) | ⟨a2, ha2, ps2, hps2, hp2⟩)
          · exact Or.inl hp
          · exact Or.inr ⟨asn, Or.inl rfl, ps, hps, hp⟩
          · exact Or.inr ⟨a2, Or.inr ha2, ps2, hps2, hp2⟩
        · rintro (hp | ⟨a2, rfl | ha2, ps2, hps2, hp2⟩)
          · exact Or.inl (Or.inl hp)
          · rw [hps] at hps2
            injection hps2 with hps2
            subst hps2
            exact Or.inl (Or.inr hp2)
          · exact Or.inr ⟨a2, ha2, ps2, hps2, hp2⟩
  obtain ⟨u, hu, hmem⟩ := hgen (sortFin cl) (fun a ha => h a (mem_sortFin.mp ha)) ∅
  refine ⟨u, hu, ?_⟩
  intro p
  rw [hmem p]
  simp only [Finset.not_mem_empty, false_or]
  constructor
  · rintro ⟨a2, ha2, hrest⟩
    exact ⟨a2, mem_sortFin.mp ha2, hrest⟩
  · rintro ⟨a2, ha2, hrest⟩
    exact ⟨a2, mem_sortFin.mpr ha2, hrest⟩

theorem foldl_setA_not_mem {x : String} :
    ∀ (l : List String) (m : List (String × Nat)) (v : Nat), x ∉ l →
      lookupA (l.foldl (fun mm a2 => setA mm a2 v) m) x = lookupA m x := by
  intro l
  induction l with
  | nil => intro m v _; rfl
  | cons a r ih =>
    intro m v hx
    rw [List.foldl_cons, ih _ v (fun h => hx (List.mem_cons_of_mem _ h)), lookupA_setA]
    have hax : a ≠ x := by
      intro hax
      apply hx
      rw [← hax]
      exact List.mem_cons_self a r
    rw [if_neg hax]

theorem foldl_setA_mem {x : String} :
    ∀ (l : List String) (m : List (String × Nat)) (v : Nat), x ∈ l →
      lookupA (l.foldl (fun mm a2 => setA mm a2 v) m) x = some v := by
  intro l
  induction l with
  | nil => intro m v hx; exact absurd hx (List.not_mem_nil _)
  | cons a r ih =>
    intro m v hx
    rw [List.foldl_cons]
    by_cases hr : x ∈ r
    · exact ih _ v hr
    · rcases List.mem_cons.mp hx with rfl | hx2
      · rw [foldl_setA_not_mem r _ v hr, lookupA_setA, if_pos rfl]
      · exact absurd hx2 hr

theorem assignCounts_spec (prefixMap : GMap) (x : String) (c : Finset String)
    (u : Finset String) (hu : unionPrefixSet prefixMap c = .ok u) :
    ∀ (groups : List (Finset String × Finset String))
      (acc : List (String × Nat) × List (String × Nat)),
      (keysList groups).Nodup →
      (∀ p ∈ groups, ∀ asn ∈ p.1, (lookupA prefixMap asn).isSome) →
      (∀ cl' assets', (cl', assets') ∈ groups → x ∈ assets' → cl' = c) →
      ∃ np no, assignCounts prefixMap groups acc = .ok (np, no) ∧
        ((∃ assets, (c, assets) ∈ groups ∧ x ∈ assets) →
          lookupA np x = some u.card ∧ lookupA no x = some c.card) ∧
        ((∀ p ∈ groups, x ∉ p.2) →
          lookupA np x = lookupA acc.1 x ∧ lookupA no x = lookupA acc.2 x) := by
  intro groups
  induction groups with
  | nil =>
    intro acc _ _ _
    refine ⟨acc.1, acc.2, rfl, ?_, fun _ => ⟨rfl, rfl⟩⟩
    rintro ⟨assets, h, _⟩
    exact absurd h (List.not_mem_nil _)
  | cons p rest ih =>
    obtain ⟨cl0, as0⟩ := p
    intro acc hnd hpre huniq
    have hnd0 : cl0 ∉ keysList rest := by
      have := hnd
      simp only [keysList, List.map_cons, List.nodup_cons] at this
      exact fun h => this.1 h
    have hndr : (keysList rest).Nodup := by
      have := hnd
      simp only [keysList, List.map_cons, List.nodup_cons] at this
      exact this.2
    obtain ⟨u0, hu0, _⟩ := unionPrefixSet_ok prefixMap cl0
      (hpre (cl0, as0) (List.mem_cons_self _ _))
    obtain ⟨np, no, hrun, hfound, hnot⟩ := ih
      ((sortFin as0).foldl (fun m a2 => setA m a2 u0.card) acc.1,
       (sortFin as0).foldl (fun m a2 => setA m a2 cl0.card) acc.2)
      hndr
      (fun p2 hp2 => hpre p2 (List.mem_cons_of_mem _ hp2))
      (fun cl' assets' h2 hx => huniq cl' assets' (List.mem_cons_of_mem _ h2) hx)
    refine ⟨np, no, ?_, ?_, ?_⟩
    · simp only [assignCounts, bind, Except.bind, hu0]
      exact hrun
    · rintro ⟨assets, hmem, hx⟩
      rcases List.mem_cons.mp hmem with heq | hmem'
      · injection heq with h1 h2
        subst h1
        subst h2
        have hnotrest : ∀ p' ∈ rest, x ∉ p'.2 := by
          intro p' hp' hxp'
          have hceq : p'.1 = c :=
            huniq p'.1 p'.2 (List.mem_cons_of_mem _ (by simpa using hp')) hxp'
          apply hnd0
          rw [← hceq] at *
          exact List.mem_map.mpr ⟨p', hp', rfl⟩
        obtain ⟨hnp, hno⟩ := hnot hnotrest
        rw [hu0] at hu
        injection hu with hu
        subst hu
        constructor
        · rw [hnp, foldl_setA_mem _ _ _ (mem_sortFin.mpr hx)]
        · rw [hno, foldl_setA_mem _ _ _ (mem_sortFin.mpr hx)]
      · exact hfound ⟨assets, hmem', hx⟩
    · intro hall
      have hx0 : x ∉ as0 := hall (cl0, as0) (List.mem_cons_self _ _)
      obtain ⟨hnp, hno⟩ := hnot (fun p2 hp2 => hall p2 (List.mem_cons_of_mem _ hp2))
      rw [hnp, hno]
      constructor
      · exact foldl_setA_not_mem _ _ _ (fun h => hx0 (mem_sortFin.mp h))
      · exact foldl_setA_not_mem _ _ _ (fun h => hx0 (mem_sortFin.mp h))

/-- C7: any two AS-SETs whose origin closures are equal as (frozen) sets get
the same prefix count — the cardinality of the union of the prefix sets of
the closure's AUT-NUMs, not the sum — and the same origin count — the
closure's cardinality. -/
theorem aggregatorCounts_per_closure (origin : List (String × Finset String))
    (prefixMap : GMap) (hnd : (keysList origin).Nodup) (a b : String) (c : Finset String)
    (ha : (a, c) ∈ origin) (hb : (b, c) ∈ origin)
    (hpre : ∀ p ∈ origin, ∀ asn ∈ p.2, (lookupA prefixMap asn).isSome) :
    ∃ (np no : List (String × Nat)) (u : Finset String),
      aggregateCounts origin prefixMap = .ok (np, no) ∧
      (∀ x, x ∈ u ↔ ∃ asn ∈ c, ∃ ps, lookupA prefixMap asn = some ps ∧ x ∈ ps) ∧
      lookupA np a = some u.card ∧ lookupA np b = some u.card ∧
      lookupA no a = some c.card ∧ lookupA no b = some c.card := by
  have hndg : (keysList (buildGroups origin)).Nodup :=
    foldl_addSetA_nodup origin [] (by simp [keysList])
  obtain ⟨u, hu, humem⟩ := unionPrefixSet_ok prefixMap c (hpre (a, c) ha)
  have hgsound : ∀ (cl' assets' : Finset String) (x : String),
      (cl', assets') ∈ buildGroups origin → x ∈ assets' → (x, cl') ∈ origin := by
    intro cl' assets' x hmem hx
    have hl := lookupA_eq_of_mem_nodup hndg hmem
    rcases foldl_addSetA_sound origin [] cl' assets' x hl hx with ⟨s0, hs0, _⟩ | h
    · simp [lookupA] at hs0
    · exact h
  have hgpre : ∀ p ∈ buildGroups origin, ∀ asn ∈ p.1, (lookupA prefixMap asn).isSome := by
    intro p hp
    obtain ⟨cl', assets'⟩ := p
    have hl := lookupA_eq_of_mem_nodup hndg hp
    have hne : assets'.Nonempty :=
      foldl_addSetA_nonempty origin [] cl' assets' (by intro c0 s0 h0; simp [lookupA] at h0) hl
    obtain ⟨y, hy⟩ := hne
    have hyo : (y, cl') ∈ origin := hgsound cl' assets' y hp hy
    exact hpre (y, cl') hyo
  have huniq : ∀ (x : String), (x, c) ∈ origin → ∀ cl' assets',
      (cl', assets') ∈ buildGroups origin → x ∈ assets' → cl' = c := by
    intro x hxc cl' assets' hmem hx
    exact value_unique_of_nodup hnd (hgsound cl' assets' x hmem hx) hxc
  obtain ⟨assetsA, hla, haA⟩ := foldl_addSetA_complete origin [] a c (Or.inr ha)
  obtain ⟨assetsB, hlb, hbB⟩ := foldl_addSetA_complete origin [] b c (Or.inr hb)
  rw [hla] at hlb
  injection hlb with hlb
  subst hlb
  have hentry : (c, assetsA) ∈ buildGroups origin := mem_of_lookupA hla
  obtain ⟨np, no, hrun, hfoundA, _⟩ :=
    assignCounts_spec prefixMap a c u hu (buildGroups origin) ([], []) hndg hgpre
      (huniq a ha)
  obtain ⟨np2, no2, hrun2, hfoundB, _⟩ :=
    assignCounts_spec prefixMap b c u hu (buildGroups origin) ([], []) hndg hgpre
      (huniq b hb)
  rw [hrun] at hrun2
  injection hrun2 with hrun2
  injection hrun2 with h1 h2
  subst h1
  subst h2
  obtain ⟨hnpa, hnoa⟩ := hfoundA ⟨assetsA, hentry, haA⟩
  obtain ⟨hnpb, hnob⟩ := hfoundB ⟨assetsA, hentry, hbB⟩
  exact ⟨np, no, u, hrun, humem, hnpa, hnpb, hnoa, hnob⟩

/-- Witness for C7: `AS-P` and `AS-Q` share the closure `{AS1, AS2}`; `AS1`
has 3 prefixes, `AS2` has 2 overlapping by one, so both report 4 (the size
of the union) and origin count 2. -/
theorem aggregatorCounts_per_closure_witness :
    ∃ (np no : List (String × Nat)) (u : Finset String),
      aggregateCounts [("AS-P", {"AS1", "AS2"}), ("AS-Q", {"AS1", "AS2"})]
        [("AS1", {"p1", "p2", "p3"}), ("AS2", {"p3", "p4"})] = .ok (np, no) ∧
      (∀ x, x ∈ u ↔ ∃ asn ∈ ({"AS1", "AS2"} : Finset String), ∃ ps,
        lookupA [("AS1", ({"p1", "p2", "p3"} : Finset String)), ("AS2", {"p3", "p4"})] asn =
          some ps ∧ x ∈ ps) ∧
      lookupA np "AS-P" = some u.card ∧ lookupA np "AS-Q" = some u.card ∧
      lookupA no "AS-P" = some ({"AS1", "AS2"} : Finset String).card ∧
      lookupA no "AS-Q" = some ({"AS1", "AS2"} : Finset String).card :=
  aggregatorCounts_per_closure
    [("AS-P", {"AS1", "AS2"}), ("AS-Q", {"AS1", "AS2"})]
    [("AS1", {"p1", "p2", "p3"}), ("AS2", {"p3", "p4"})]
    (by decide) "AS-P" "AS-Q" {"AS1", "AS2"} (by decide) (by decide) (by decide)

end IrrTree
